import Mathlib

/-!
Verification of the platypus-diff core: the affine-gap alignment DP
(`src/alignment.rs`), the structure-aware tokenizer (`src/tokenizer.rs`),
the whitespace interleaver and the line renderer (`src/alignment.rs`).

Rust `f64` scores are modelled as exact rationals (`ℚ`), with `⊤` of
`WithTop ℚ` standing for `f64::INFINITY` (the code only ever adds finite
policy scores to running totals and compares with `<`, so the exact-field
model reproduces the control flow).  Rust `&str` values are modelled as
`List Char`; byte offsets and byte lengths are modelled by summing
`Char.utf8Size` over the characters.
-/

namespace PlatypusDiff

/-- Rust strings (`&str`/`String`) are modelled as lists of characters. -/
abbrev Str := List Char

/-- Byte length of a string, as Rust `str::len` (UTF-8 bytes). -/
def byteLen (s : Str) : Nat := (s.map Char.utf8Size).sum

/-- Scores: `f64` values used by the DP, with `⊤` for `f64::INFINITY`. -/
abbrev Score := WithTop ℚ

/-- `AlignmentOperation` from `src/alignment.rs`: the three edit-script
operation shapes. -/
inductive Op (T : Type) where
  | Mutation (left right : T)
  | InsertLeft (left : T)
  | InsertRight (right : T)
deriving DecidableEq

/-- `AlignmentOperation::left`: the left payload, if present. -/
def Op.leftTok {T : Type} : Op T → Option T
  | .Mutation l _ => some l
  | .InsertLeft l => some l
  | .InsertRight _ => none

/-- `AlignmentOperation::right`: the right payload, if present. -/
def Op.rightTok {T : Type} : Op T → Option T
  | .Mutation _ r => some r
  | .InsertLeft _ => none
  | .InsertRight r => some r

/-- The three operation kinds (which DP layer an operation belongs to). -/
inductive OpKind where
  | mutation
  | insL
  | insR
deriving DecidableEq

/-- Kind tag of an operation. -/
def Op.kind {T : Type} : Op T → OpKind
  | .Mutation _ _ => .mutation
  | .InsertLeft _ => .insL
  | .InsertRight _ => .insR

/-- Projection of a script onto the left sequence: the left payloads of
Mutation and InsertLeft operations, in script order. -/
def leftProj {T : Type} (s : List (Op T)) : List T := s.filterMap Op.leftTok

/-- Projection of a script onto the right sequence. -/
def rightProj {T : Type} (s : List (Op T)) : List T := s.filterMap Op.rightTok

/-- A script is an alignment of `left` with `right` when its projections
reproduce both token sequences (spec §3, "Alignment script"). -/
def IsScript {T : Type} (left right : List T) (s : List (Op T)) : Prop :=
  leftProj s = left ∧ rightProj s = right

/-- The `AlignmentScoring` trait from `src/types.rs`: a scoring policy. -/
structure Policy (T : Type) where
  insert_score : T → Bool → ℚ
  mutation_score : T → T → ℚ

/-- Cost of one operation given the kind of the operation immediately
before it in the script (`.mutation` also stands for "no previous operation":
both make the `previous_is_same` insert flag false). -/
def opCost {T : Type} (p : Policy T) (k : OpKind) : Op T → ℚ
  | .Mutation l r => p.mutation_score l r
  | .InsertLeft l => p.insert_score l (decide (k = OpKind.insL))
  | .InsertRight r => p.insert_score r (decide (k = OpKind.insR))

/-- Total cost of a script, threading the previous-operation kind so that
the `previous_is_same` flag of an insert is true exactly when the
immediately preceding operation is an insert on the same side. -/
def scriptCost {T : Type} (p : Policy T) : OpKind → List (Op T) → ℚ
  | _, [] => 0
  | k, op :: rest => opCost p k op + scriptCost p op.kind rest

/-- Kind of the last operation of a script, with `k` as the value for the
empty script. -/
def lastKindFrom {T : Type} (k : OpKind) (s : List (Op T)) : OpKind :=
  ((s.getLast?).map Op.kind).getD k

/-- Kind of the last operation of a script (`.mutation` for the empty script,
matching the initial DP cell). -/
def lastKind {T : Type} (s : List (Op T)) : OpKind := lastKindFrom .mutation s

/-- `AlignmentData` from `src/alignment.rs`: one DP layer, a cost and the
persistent path (stored with the most recent operation first, as in the
linked `PathList`). -/
structure AData (T : Type) where
  score : Score
  path : List (Op T)

/-- `AlignmentData::new()`: cost 0, empty path. -/
def AData.new {T : Type} : AData T := ⟨(0 : ℚ), []⟩

/-- `AlignmentData::unreachable()`: cost `f64::INFINITY`, empty path. -/
def AData.unreachable {T : Type} : AData T := ⟨⊤, []⟩

/-- `AlignmentState` from `src/alignment.rs`: the three layers of one DP
cell, indexed by the kind of the last operation on the path reaching it. -/
structure AState (T : Type) where
  last_was_mutation : AData T
  last_was_insert_left : AData T
  last_was_insert_right : AData T

/-- `AlignmentState::pick_best`: choose among the three candidate incoming
transitions with the source's exact comparison structure, and extend the
chosen path by `payload`. -/
def AState.pick_best {T : Type} (st : AState T) (payload : Op T)
    (mutation_score insert_left_score insert_right_score : Score) : AData T :=
  if insert_left_score < insert_right_score then
    if insert_left_score < mutation_score then
      ⟨insert_left_score, payload :: st.last_was_insert_left.path⟩
    else
      ⟨mutation_score, payload :: st.last_was_mutation.path⟩
  else
    if insert_right_score < mutation_score then
      ⟨insert_right_score, payload :: st.last_was_insert_right.path⟩
    else
      ⟨mutation_score, payload :: st.last_was_mutation.path⟩

/-- `AlignmentState::insert_left_score`: the InsertLeft transition from a
cell (the `previous_is_same` flag is true only from the insert-left
layer). -/
def AState.insert_left_score {T : Type} (st : AState T) (p : Policy T) (l : T) : AData T :=
  st.pick_best (.InsertLeft l)
    (st.last_was_mutation.score + (p.insert_score l false : ℚ))
    (st.last_was_insert_left.score + (p.insert_score l true : ℚ))
    (st.last_was_insert_right.score + (p.insert_score l false : ℚ))

/-- `AlignmentState::insert_right_score`: the InsertRight transition. -/
def AState.insert_right_score {T : Type} (st : AState T) (p : Policy T) (r : T) : AData T :=
  st.pick_best (.InsertRight r)
    (st.last_was_mutation.score + (p.insert_score r false : ℚ))
    (st.last_was_insert_left.score + (p.insert_score r false : ℚ))
    (st.last_was_insert_right.score + (p.insert_score r true : ℚ))

/-- `AlignmentState::mutation_score`: the Mutation transition (the same
mutation cost is added to all three layers). -/
def AState.mutation_state {T : Type} (st : AState T) (p : Policy T) (l r : T) : AData T :=
  st.pick_best (.Mutation l r)
    (st.last_was_mutation.score + (p.mutation_score l r : ℚ))
    (st.last_was_insert_left.score + (p.mutation_score l r : ℚ))
    (st.last_was_insert_right.score + (p.mutation_score l r : ℚ))

/-- `AlignmentState::extract_best`: the minimum-cost layer of a cell, with
the source's tie-breaking. -/
def AState.extract_best {T : Type} (st : AState T) : AData T :=
  if st.last_was_mutation.score < st.last_was_insert_left.score then
    if st.last_was_mutation.score < st.last_was_insert_right.score then
      st.last_was_mutation
    else
      st.last_was_insert_right
  else
    if st.last_was_insert_left.score < st.last_was_insert_right.score then
      st.last_was_insert_left
    else
      st.last_was_insert_right

/-- Cell (0,0) of the DP table: empty path with cost 0 in the mutation
layer, both insert layers unreachable. -/
def initCell {T : Type} : AState T :=
  ⟨AData.new, AData.unreachable, AData.unreachable⟩

/-- Cells (0,l) for l ≥ 1 of row 0, built left to right from the previous
cell (the first loop of `align`). -/
def initRowAux {T : Type} (p : Policy T) (st : AState T) : List T → List (AState T)
  | [] => []
  | l :: ls =>
    let cell : AState T := ⟨AData.unreachable, st.insert_left_score p l, AData.unreachable⟩
    cell :: initRowAux p cell ls

/-- Row 0 of the DP table. -/
def initRow {T : Type} (p : Policy T) (left : List T) : List (AState T) :=
  initCell :: initRowAux p initCell left

/-- Inner loop of `align` for one row: `diag` is `current[i-1]`,
`prevNext` is the cell just pushed onto `next`, the remaining `current`
cells are walked in lockstep with the remaining left tokens. -/
def stepRowAux {T : Type} (p : Policy T) (r : T) :
    AState T → AState T → List (AState T) → List T → List (AState T)
  | diag, prevNext, up :: cs, l :: ls =>
    let cell : AState T :=
      ⟨diag.mutation_state p l r, prevNext.insert_left_score p l,
        up.insert_right_score p r⟩
    cell :: stepRowAux p r up cell cs ls
  | _, _, _, _ => []

/-- One iteration of the outer loop of `align`: build row `next` for the
right token `r` from row `current`. -/
def stepRow {T : Type} (p : Policy T) (left : List T) (current : List (AState T)) (r : T) :
    List (AState T) :=
  match current with
  | [] => []
  | c0 :: rest =>
    let n0 : AState T := ⟨AData.unreachable, AData.unreachable, c0.insert_right_score p r⟩
    n0 :: stepRowAux p r c0 n0 rest left

/-- `align` from `src/alignment.rs`: run the row DP over `right`, take the
final cell's best layer, and return its path from outermost to innermost
(`PathList::extract_path` reverses the stored chain). -/
def align {T : Type} (p : Policy T) (left right : List T) : List (Op T) :=
  (((right.foldl (stepRow p left) (initRow p left)).getLastD initCell).extract_best).path.reverse

/-! ### Basic facts about projections, last kinds and script costs -/

section Facts

variable {T : Type}

lemma leftProj_nil : leftProj ([] : List (Op T)) = [] := rfl

lemma rightProj_nil : rightProj ([] : List (Op T)) = [] := rfl

lemma leftProj_append (s t : List (Op T)) :
    leftProj (s ++ t) = leftProj s ++ leftProj t := by
  simp [leftProj]

lemma rightProj_append (s t : List (Op T)) :
    rightProj (s ++ t) = rightProj s ++ rightProj t := by
  simp [rightProj]

lemma lastKindFrom_nil (k : OpKind) : lastKindFrom k ([] : List (Op T)) = k := rfl

lemma lastKindFrom_concat (k : OpKind) (s : List (Op T)) (op : Op T) :
    lastKindFrom k (s ++ [op]) = op.kind := by
  simp [lastKindFrom]

lemma lastKindFrom_cons (k : OpKind) (a : Op T) (s : List (Op T)) :
    lastKindFrom k (a :: s) = lastKindFrom a.kind s := by
  cases s with
  | nil => rfl
  | cons b t =>
    obtain ⟨x, hx⟩ : ∃ x, (b :: t).getLast? = some x :=
      ⟨(b :: t).getLast (by simp), List.getLast?_eq_getLast _ (by simp)⟩
    simp [lastKindFrom, List.getLast?_cons_cons, hx]

lemma lastKind_concat (s : List (Op T)) (op : Op T) :
    lastKind (s ++ [op]) = op.kind := lastKindFrom_concat _ s op

lemma lastKind_reverse_cons (op : Op T) (path : List (Op T)) :
    lastKind ((op :: path).reverse) = op.kind := by
  rw [List.reverse_cons]; exact lastKind_concat _ op

lemma scriptCost_concat (p : Policy T) (k : OpKind) (s : List (Op T)) (op : Op T) :
    scriptCost p k (s ++ [op]) = scriptCost p k s + opCost p (lastKindFrom k s) op := by
  induction s generalizing k with
  | nil => simp [scriptCost, lastKindFrom_nil]
  | cons a t ih =>
    rw [List.cons_append]
    simp only [scriptCost, lastKindFrom_cons, ih, add_assoc]

/-- Any nonempty script has a nonempty projection on some side. -/
lemma isScript_nil_nil (s : List (Op T)) (h : IsScript ([] : List T) [] s) : s = [] := by
  cases s with
  | nil => rfl
  | cons a t =>
    rcases h with ⟨hl, hr⟩
    cases a with
    | Mutation l r => simp [leftProj, Op.leftTok, List.filterMap_cons] at hl
    | InsertLeft l => simp [leftProj, Op.leftTok, List.filterMap_cons] at hl
    | InsertRight r => simp [rightProj, Op.rightTok, List.filterMap_cons] at hr

lemma lastKind_eq_insL (s : List (Op T)) (h : lastKind s = .insL) :
    ∃ s' a, s = s' ++ [Op.InsertLeft a] := by
  rcases List.eq_nil_or_concat s with rfl | ⟨s', op, rfl⟩
  · simp [lastKind, lastKindFrom] at h
  · rw [List.concat_eq_append, lastKind_concat] at h
    cases op with
    | Mutation l r => simp [Op.kind] at h
    | InsertLeft l => exact ⟨s', l, List.concat_eq_append s' _⟩
    | InsertRight r => simp [Op.kind] at h

lemma lastKind_eq_insR (s : List (Op T)) (h : lastKind s = .insR) :
    ∃ s' a, s = s' ++ [Op.InsertRight a] := by
  rcases List.eq_nil_or_concat s with rfl | ⟨s', op, rfl⟩
  · simp [lastKind, lastKindFrom] at h
  · rw [List.concat_eq_append, lastKind_concat] at h
    cases op with
    | Mutation l r => simp [Op.kind] at h
    | InsertLeft l => simp [Op.kind] at h
    | InsertRight r => exact ⟨s', r, List.concat_eq_append s' _⟩

lemma lastKind_eq_mut (s : List (Op T)) (h : lastKind s = .mutation) :
    s = [] ∨ ∃ s' a b, s = s' ++ [Op.Mutation a b] := by
  rcases List.eq_nil_or_concat s with rfl | ⟨s', op, rfl⟩
  · exact Or.inl rfl
  · rw [List.concat_eq_append, lastKind_concat] at h
    cases op with
    | Mutation a b => exact Or.inr ⟨s', a, b, List.concat_eq_append s' _⟩
    | InsertLeft l => simp [Op.kind] at h
    | InsertRight r => simp [Op.kind] at h

end Facts

/-! ### The DP cell invariant -/

section Invariant

variable {T : Type}

/-- What one DP layer means: if its score is finite then its stored path
(reversed) is an alignment script of the two prefixes with exactly that
cost whose last operation has the layer's kind; and its score is a lower
bound on the cost of every such script. -/
def LayerOK (p : Policy T) (L R : List T) (k : OpKind) (d : AData T) : Prop :=
  (∀ q : ℚ, d.score = (q : Score) →
      IsScript L R d.path.reverse ∧ scriptCost p .mutation d.path.reverse = q ∧
        lastKind d.path.reverse = k) ∧
  ∀ s : List (Op T), IsScript L R s → lastKind s = k →
      d.score ≤ (scriptCost p .mutation s : Score)

/-- A DP cell is correct when each of its three layers is. -/
def CellOK (p : Policy T) (L R : List T) (st : AState T) : Prop :=
  LayerOK p L R .mutation st.last_was_mutation ∧
  LayerOK p L R .insL st.last_was_insert_left ∧
  LayerOK p L R .insR st.last_was_insert_right

lemma pick_best_cases (st : AState T) (payload : Op T) (ms ils irs : Score) :
    st.pick_best payload ms ils irs = ⟨ms, payload :: st.last_was_mutation.path⟩ ∨
    st.pick_best payload ms ils irs = ⟨ils, payload :: st.last_was_insert_left.path⟩ ∨
    st.pick_best payload ms ils irs = ⟨irs, payload :: st.last_was_insert_right.path⟩ := by
  unfold AState.pick_best
  split_ifs <;> simp

lemma pick_best_score_le (st : AState T) (payload : Op T) (ms ils irs : Score) :
    (st.pick_best payload ms ils irs).score ≤ ms ∧
    (st.pick_best payload ms ils irs).score ≤ ils ∧
    (st.pick_best payload ms ils irs).score ≤ irs := by
  unfold AState.pick_best
  split_ifs with h1 h2 h3
  · exact ⟨le_of_lt h2, le_refl _, le_of_lt h1⟩
  · exact ⟨le_refl _, le_of_not_lt h2, le_trans (le_of_not_lt h2) (le_of_lt h1)⟩
  · exact ⟨le_of_lt h3, le_of_not_lt h1, le_refl _⟩
  · exact ⟨le_refl _, le_trans (le_of_not_lt h3) (le_of_not_lt h1), le_of_not_lt h3⟩

lemma extract_best_cases (st : AState T) :
    st.extract_best = st.last_was_mutation ∨
    st.extract_best = st.last_was_insert_left ∨
    st.extract_best = st.last_was_insert_right := by
  unfold AState.extract_best
  split_ifs <;> simp

lemma extract_best_score_le (st : AState T) :
    st.extract_best.score ≤ st.last_was_mutation.score ∧
    st.extract_best.score ≤ st.last_was_insert_left.score ∧
    st.extract_best.score ≤ st.last_was_insert_right.score := by
  unfold AState.extract_best
  split_ifs with h1 h2 h3
  · exact ⟨le_refl _, le_of_lt h1, le_of_lt h2⟩
  · exact ⟨le_of_not_lt h2, le_trans (le_of_not_lt h2) (le_of_lt h1), le_refl _⟩
  · exact ⟨le_of_not_lt h1, le_refl _, le_of_lt h3⟩
  · exact ⟨le_trans (le_of_not_lt h3) (le_of_not_lt h1), le_of_not_lt h3, le_refl _⟩

lemma score_add_coe_eq {a : Score} {c q : ℚ} (h : a + (c : Score) = (q : Score)) :
    ∃ q' : ℚ, a = (q' : Score) ∧ q = q' + c := by
  induction a using WithTop.recTopCoe with
  | top => rw [top_add] at h; exact absurd h.symm (WithTop.coe_ne_top)
  | coe q' =>
    rw [← WithTop.coe_add, WithTop.coe_inj] at h
    exact ⟨q', rfl, h.symm⟩

/-- A layer for an unrealisable operation kind: the `unreachable` data is
correct whenever no script for the given prefixes ends in kind `k`. -/
lemma layerOK_unreachable (p : Policy T) (L R : List T) (k : OpKind)
    (h : ∀ s, IsScript L R s → lastKind s ≠ k) :
    LayerOK p L R k (AData.unreachable : AData T) := by
  constructor
  · intro q hq
    exact absurd hq.symm WithTop.coe_ne_top
  · intro s hs hk
    exact absurd hk (h s hs)

lemma initCell_ok (p : Policy T) : CellOK p [] [] (initCell : AState T) := by
  refine ⟨⟨?_, ?_⟩, ?_, ?_⟩
  · intro q hq
    have hq0 : q = 0 := by
      have h' : ((q : ℚ) : Score) = ((0 : ℚ) : Score) := hq.symm
      exact WithTop.coe_inj.mp h'
    subst hq0
    exact ⟨⟨rfl, rfl⟩, rfl, rfl⟩
  · intro s hs _
    have := isScript_nil_nil s hs
    subst this
    exact le_refl _
  · refine layerOK_unreachable p [] [] .insL (fun s hs hk => ?_)
    have := isScript_nil_nil s hs
    subst this
    simp [lastKind, lastKindFrom] at hk
  · refine layerOK_unreachable p [] [] .insR (fun s hs hk => ?_)
    have := isScript_nil_nil s hs
    subst this
    simp [lastKind, lastKindFrom] at hk

/-- Umbrella transition lemma: `pick_best` applied to the three layer
candidates of a correct cell yields a correct layer for the extended
prefixes, provided appending `op` maps scripts of the old prefixes to
scripts of the new ones and, conversely, every script of the new prefixes
that ends in `op.kind` decomposes as such an extension. -/
lemma pick_best_layerOK (p : Policy T) {L R L' R' : List T} (st : AState T) (op : Op T)
    (hcell : CellOK p L R st)
    (hfwd : ∀ s, IsScript L R s → IsScript L' R' (s ++ [op]))
    (hbwd : ∀ s, IsScript L' R' s → lastKind s = op.kind →
              ∃ s', s = s' ++ [op] ∧ IsScript L R s') :
    LayerOK p L' R' op.kind
      (st.pick_best op
        (st.last_was_mutation.score + (opCost p .mutation op : ℚ))
        (st.last_was_insert_left.score + (opCost p .insL op : ℚ))
        (st.last_was_insert_right.score + (opCost p .insR op : ℚ))) := by
  obtain ⟨hmut, hinsL, hinsR⟩ := hcell
  constructor
  · -- achievability of the chosen candidate
    intro q hq
    have hach : ∀ (d : AData T) (ksrc : OpKind), LayerOK p L R ksrc d →
        (st.pick_best op
            (st.last_was_mutation.score + (opCost p .mutation op : ℚ))
            (st.last_was_insert_left.score + (opCost p .insL op : ℚ))
            (st.last_was_insert_right.score + (opCost p .insR op : ℚ)))
          = ⟨d.score + (opCost p ksrc op : ℚ), op :: d.path⟩ →
        IsScript L' R' (st.pick_best op
            (st.last_was_mutation.score + (opCost p .mutation op : ℚ))
            (st.last_was_insert_left.score + (opCost p .insL op : ℚ))
            (st.last_was_insert_right.score + (opCost p .insR op : ℚ))).path.reverse ∧
        scriptCost p .mutation (st.pick_best op
            (st.last_was_mutation.score + (opCost p .mutation op : ℚ))
            (st.last_was_insert_left.score + (opCost p .insL op : ℚ))
            (st.last_was_insert_right.score + (opCost p .insR op : ℚ))).path.reverse = q ∧
        lastKind (st.pick_best op
            (st.last_was_mutation.score + (opCost p .mutation op : ℚ))
            (st.last_was_insert_left.score + (opCost p .insL op : ℚ))
            (st.last_was_insert_right.score + (opCost p .insR op : ℚ))).path.reverse = op.kind := by
      intro d ksrc hd hc
      rw [hc] at hq ⊢
      obtain ⟨q', hdq, rfl⟩ := score_add_coe_eq hq
      obtain ⟨hscr, hcost, hkind⟩ := hd.1 q' hdq
      simp only [List.reverse_cons]
      refine ⟨hfwd _ hscr, ?_, lastKind_concat _ op⟩
      rw [scriptCost_concat, hcost]
      have : lastKindFrom .mutation d.path.reverse = ksrc := hkind
      rw [this]
    rcases pick_best_cases st op
        (st.last_was_mutation.score + (opCost p .mutation op : ℚ))
        (st.last_was_insert_left.score + (opCost p .insL op : ℚ))
        (st.last_was_insert_right.score + (opCost p .insR op : ℚ)) with hc | hc | hc
    · exact hach st.last_was_mutation .mutation hmut hc
    · exact hach st.last_was_insert_left .insL hinsL hc
    · exact hach st.last_was_insert_right .insR hinsR hc
  · -- minimality
    intro s hs hk
    obtain ⟨s', rfl, hs'⟩ := hbwd s hs hk
    rw [scriptCost_concat]
    have hle := pick_best_score_le st op
        (st.last_was_mutation.score + (opCost p .mutation op : ℚ))
        (st.last_was_insert_left.score + (opCost p .insL op : ℚ))
        (st.last_was_insert_right.score + (opCost p .insR op : ℚ))
    have hcand : ∀ (d : AData T) (ksrc : OpKind), LayerOK p L R ksrc d →
        lastKind s' = ksrc →
        d.score + (opCost p ksrc op : ℚ) ≤
          ((scriptCost p .mutation s' + opCost p (lastKindFrom .mutation s') op : ℚ) : Score) := by
      intro d ksrc hd hks
      have h1 : d.score ≤ (scriptCost p .mutation s' : ℚ) := hd.2 s' hs' hks
      have : lastKindFrom OpKind.mutation s' = ksrc := hks
      rw [this, WithTop.coe_add]
      exact add_le_add_right h1 _
    cases hks : lastKind s' with
    | mutation => exact le_trans hle.1 (hcand st.last_was_mutation .mutation hmut hks)
    | insL => exact le_trans hle.2.1 (hcand st.last_was_insert_left .insL hinsL hks)
    | insR => exact le_trans hle.2.2 (hcand st.last_was_insert_right .insR hinsR hks)

lemma leftProj_single_mut (l r : T) : leftProj [Op.Mutation l r] = [l] := rfl

lemma leftProj_single_insL (l : T) : leftProj [Op.InsertLeft l] = [l] := rfl

lemma leftProj_single_insR (r : T) : leftProj [Op.InsertRight r] = ([] : List T) := rfl

lemma rightProj_single_mut (l r : T) : rightProj [Op.Mutation l r] = [r] := rfl

lemma rightProj_single_insL (l : T) : rightProj [Op.InsertLeft l] = ([] : List T) := rfl

lemma rightProj_single_insR (r : T) : rightProj [Op.InsertRight r] = [r] := rfl

/-- The InsertLeft transition takes a correct cell for `(L, R)` to a
correct insert-left layer for `(L ++ [l], R)`. -/
lemma insert_left_ok (p : Policy T) {L R : List T} (l : T) {st : AState T}
    (h : CellOK p L R st) :
    LayerOK p (L ++ [l]) R .insL (st.insert_left_score p l) := by
  have key := @pick_best_layerOK T p L R (L ++ [l]) R st (.InsertLeft l) h
    (fun s hs => by
      refine ⟨?_, ?_⟩
      · rw [leftProj_append, hs.1, leftProj_single_insL]
      · rw [rightProj_append, hs.2, rightProj_single_insL, List.append_nil])
    (fun s hs hk => by
      obtain ⟨s', a, rfl⟩ := lastKind_eq_insL s hk
      have h1 := hs.1
      rw [leftProj_append, leftProj_single_insL] at h1
      obtain ⟨hL, ha⟩ := List.append_inj' h1 rfl
      have ha' : a = l := by simpa using ha
      subst ha'
      have h2 := hs.2
      rw [rightProj_append, rightProj_single_insL, List.append_nil] at h2
      exact ⟨s', rfl, hL, h2⟩)
  exact key

/-- The InsertRight transition takes a correct cell for `(L, R)` to a
correct insert-right layer for `(L, R ++ [r])`. -/
lemma insert_right_ok (p : Policy T) {L R : List T} (r : T) {st : AState T}
    (h : CellOK p L R st) :
    LayerOK p L (R ++ [r]) .insR (st.insert_right_score p r) := by
  have key := @pick_best_layerOK T p L R L (R ++ [r]) st (.InsertRight r) h
    (fun s hs => by
      refine ⟨?_, ?_⟩
      · rw [leftProj_append, hs.1, leftProj_single_insR, List.append_nil]
      · rw [rightProj_append, hs.2, rightProj_single_insR])
    (fun s hs hk => by
      obtain ⟨s', a, rfl⟩ := lastKind_eq_insR s hk
      have h2 := hs.2
      rw [rightProj_append, rightProj_single_insR] at h2
      obtain ⟨hR, ha⟩ := List.append_inj' h2 rfl
      have ha' : a = r := by simpa using ha
      subst ha'
      have h1 := hs.1
      rw [leftProj_append, leftProj_single_insR, List.append_nil] at h1
      exact ⟨s', rfl, h1, hR⟩)
  exact key

/-- The Mutation transition takes a correct cell for `(L, R)` to a
correct mutation layer for `(L ++ [l], R ++ [r])`. -/
lemma mutation_ok (p : Policy T) {L R : List T} (l r : T) {st : AState T}
    (h : CellOK p L R st) :
    LayerOK p (L ++ [l]) (R ++ [r]) .mutation (st.mutation_state p l r) := by
  have key := @pick_best_layerOK T p L R (L ++ [l]) (R ++ [r]) st (.Mutation l r) h
    (fun s hs => by
      refine ⟨?_, ?_⟩
      · rw [leftProj_append, hs.1, leftProj_single_mut]
      · rw [rightProj_append, hs.2, rightProj_single_mut])
    (fun s hs hk => by
      rcases lastKind_eq_mut s hk with rfl | ⟨s', a, b, rfl⟩
      · exfalso
        have h1 := hs.1
        simp [leftProj] at h1
      · have h1 := hs.1
        rw [leftProj_append, leftProj_single_mut] at h1
        obtain ⟨hL, ha⟩ := List.append_inj' h1 rfl
        have ha' : a = l := by simpa using ha
        subst ha'
        have h2 := hs.2
        rw [rightProj_append, rightProj_single_mut] at h2
        obtain ⟨hR, hb⟩ := List.append_inj' h2 rfl
        have hb' : b = r := by simpa using hb
        subst hb'
        exact ⟨s', rfl, hL, hR⟩)
  exact key

/-- No script for a nonempty left prefix and empty right prefix ends in a
Mutation (or is empty). -/
lemma noScript_mutation_left (L : List T) (l : T) :
    ∀ s, IsScript (L ++ [l]) [] s → lastKind s ≠ .mutation := by
  intro s hs hk
  rcases lastKind_eq_mut s hk with rfl | ⟨s', a, b, rfl⟩
  · have h1 := hs.1
    simp [leftProj] at h1
  · have h2 := hs.2
    rw [rightProj_append, rightProj_single_mut] at h2
    simp at h2

lemma noScript_insR_left (L : List T) (l : T) :
    ∀ s, IsScript (L ++ [l]) [] s → lastKind s ≠ .insR := by
  intro s hs hk
  obtain ⟨s', a, rfl⟩ := lastKind_eq_insR s hk
  have h2 := hs.2
  rw [rightProj_append, rightProj_single_insR] at h2
  simp at h2

lemma noScript_mutation_right (R : List T) (r : T) :
    ∀ s, IsScript [] (R ++ [r]) s → lastKind s ≠ .mutation := by
  intro s hs hk
  rcases lastKind_eq_mut s hk with rfl | ⟨s', a, b, rfl⟩
  · have h2 := hs.2
    simp [rightProj] at h2
  · have h1 := hs.1
    rw [leftProj_append, leftProj_single_mut] at h1
    simp at h1

lemma noScript_insL_right (R : List T) (r : T) :
    ∀ s, IsScript [] (R ++ [r]) s → lastKind s ≠ .insL := by
  intro s hs hk
  obtain ⟨s', a, rfl⟩ := lastKind_eq_insL s hk
  have h1 := hs.1
  rw [leftProj_append, leftProj_single_insL] at h1
  simp at h1

end Invariant

/-! ### Row-level induction over the DP -/

section Rows

variable {T : Type}

/-- `RowOK p R Lpre ls row`: `row` is the list of DP cells for the right
prefix `R` and the left prefixes `Lpre`, `Lpre ++ [l₁]`, …, `Lpre ++ ls`. -/
def RowOK (p : Policy T) (R : List T) : List T → List T → List (AState T) → Prop
  | _, _, [] => False
  | Lpre, [], st :: rest => CellOK p Lpre R st ∧ rest = []
  | Lpre, l :: ls, st :: rest => CellOK p Lpre R st ∧ RowOK p R (Lpre ++ [l]) ls rest

lemma rowOK_ne_nil {p : Policy T} {R Lpre ls : List T} {row : List (AState T)}
    (h : RowOK p R Lpre ls row) : row ≠ [] := by
  intro hrow
  subst hrow
  cases ls <;> exact h

lemma initRowAux_ok (p : Policy T) :
    ∀ (ls Lpre : List T) (st : AState T), CellOK p Lpre [] st →
      RowOK p [] Lpre ls (st :: initRowAux p st ls) := by
  intro ls
  induction ls with
  | nil => intro Lpre st h; exact ⟨h, rfl⟩
  | cons l ls ih =>
    intro Lpre st h
    refine ⟨h, ?_⟩
    refine ih (Lpre ++ [l]) _ ?_
    refine ⟨?_, ?_, ?_⟩
    · exact layerOK_unreachable p _ _ _ (noScript_mutation_left Lpre l)
    · exact insert_left_ok p l h
    · exact layerOK_unreachable p _ _ _ (noScript_insR_left Lpre l)

lemma initRow_ok (p : Policy T) (left : List T) :
    RowOK p [] [] left (initRow p left) :=
  initRowAux_ok p left [] initCell (initCell_ok p)

lemma stepRowAux_ok (p : Policy T) (r : T) (R : List T) :
    ∀ (ls Lpre : List T) (diag prevNext : AState T) (curRest : List (AState T)),
      CellOK p Lpre R diag → CellOK p Lpre (R ++ [r]) prevNext →
      RowOK p R Lpre ls (diag :: curRest) →
      RowOK p (R ++ [r]) Lpre ls (prevNext :: stepRowAux p r diag prevNext curRest ls) := by
  intro ls
  induction ls with
  | nil =>
    intro Lpre diag prevNext curRest _ hnext hrow
    obtain ⟨_, hrest⟩ := hrow
    subst hrest
    exact ⟨hnext, rfl⟩
  | cons l ls ih =>
    intro Lpre diag prevNext curRest hdiag hnext hrow
    obtain ⟨_, hrow'⟩ := hrow
    cases curRest with
    | nil => exact absurd rfl (rowOK_ne_nil hrow')
    | cons up cs =>
      have hup : CellOK p (Lpre ++ [l]) R up := by
        cases ls with
        | nil => exact hrow'.1
        | cons l' ls' => exact hrow'.1
      refine ⟨hnext, ?_⟩
      refine ih (Lpre ++ [l]) up _ cs hup ?_ hrow'
      refine ⟨?_, ?_, ?_⟩
      · exact mutation_ok p l r hdiag
      · exact insert_left_ok p l hnext
      · exact insert_right_ok p r hup

lemma stepRow_ok (p : Policy T) (left : List T) (r : T) (R : List T)
    (cur : List (AState T)) (h : RowOK p R [] left cur) :
    RowOK p (R ++ [r]) [] left (stepRow p left cur r) := by
  cases cur with
  | nil => exact absurd rfl (rowOK_ne_nil h)
  | cons c0 rest =>
    have hc0 : CellOK p [] R c0 := by
      cases left with
      | nil => exact h.1
      | cons l ls => exact h.1
    have hn0 : CellOK p [] (R ++ [r]) (⟨AData.unreachable, AData.unreachable,
        c0.insert_right_score p r⟩ : AState T) := by
      refine ⟨?_, ?_, ?_⟩
      · exact layerOK_unreachable p _ _ _ (noScript_mutation_right R r)
      · exact layerOK_unreachable p _ _ _ (noScript_insL_right R r)
      · exact insert_right_ok p r hc0
    exact stepRowAux_ok p r R left [] c0 _ rest hc0 hn0 h

lemma foldl_rows_ok (p : Policy T) (left : List T) :
    ∀ (rs R : List T) (cur : List (AState T)), RowOK p R [] left cur →
      RowOK p (R ++ rs) [] left (rs.foldl (stepRow p left) cur) := by
  intro rs
  induction rs with
  | nil => intro R cur h; simpa using h
  | cons r rs ih =>
    intro R cur h
    have h' := stepRow_ok p left r R cur h
    have := ih (R ++ [r]) _ h'
    simpa [List.append_assoc] using this

lemma getLastD_ne_nil {α : Type} :
    ∀ (l : List α) (a b : α), l ≠ [] → l.getLastD a = l.getLastD b := by
  intro l
  induction l with
  | nil => intro a b h; exact absurd rfl h
  | cons x xs ih =>
    intro a b _
    cases xs with
    | nil => rfl
    | cons y ys => exact ih x x (by simp)

lemma rowOK_getLastD (p : Policy T) (R : List T) :
    ∀ (ls Lpre : List T) (row : List (AState T)) (d : AState T),
      RowOK p R Lpre ls row → CellOK p (Lpre ++ ls) R (row.getLastD d) := by
  intro ls
  induction ls with
  | nil =>
    intro Lpre row d h
    cases row with
    | nil => exact absurd rfl (rowOK_ne_nil h)
    | cons st rest =>
      obtain ⟨hst, hrest⟩ := h
      subst hrest
      simpa using hst
  | cons l ls ih =>
    intro Lpre row d h
    cases row with
    | nil => exact absurd rfl (rowOK_ne_nil h)
    | cons st rest =>
      obtain ⟨_, hrow'⟩ := h
      have hne : rest ≠ [] := rowOK_ne_nil hrow'
      have := ih (Lpre ++ [l]) rest d hrow'
      rw [List.append_assoc] at this
      simp only [List.singleton_append] at this
      have hlast : (st :: rest).getLastD d = rest.getLastD d := by
        cases rest with
        | nil => exact absurd rfl hne
        | cons y ys => exact getLastD_ne_nil (y :: ys) st d (by simp)
      rw [hlast]
      exact this

/-- The all-inserts script: always a valid alignment script. -/
def allInserts (left right : List T) : List (Op T) :=
  left.map Op.InsertLeft ++ right.map Op.InsertRight

lemma leftProj_map_insL (left : List T) : leftProj (left.map Op.InsertLeft) = left := by
  induction left with
  | nil => rfl
  | cons l ls ih => simpa [leftProj, List.filterMap_cons, Op.leftTok] using ih

lemma rightProj_map_insL (left : List T) : rightProj (left.map Op.InsertLeft) = [] := by
  induction left with
  | nil => rfl
  | cons l ls ih =>
    rw [List.map_cons]
    show rightProj (Op.InsertLeft l :: ls.map Op.InsertLeft) = []
    rw [rightProj, List.filterMap_cons]
    exact ih

lemma leftProj_map_insR (right : List T) : leftProj (right.map Op.InsertRight) = [] := by
  induction right with
  | nil => rfl
  | cons r rs ih =>
    rw [List.map_cons]
    show leftProj (Op.InsertRight r :: rs.map Op.InsertRight) = []
    rw [leftProj, List.filterMap_cons]
    exact ih

lemma rightProj_map_insR (right : List T) : rightProj (right.map Op.InsertRight) = right := by
  induction right with
  | nil => rfl
  | cons r rs ih => simpa [rightProj, List.filterMap_cons, Op.rightTok] using ih

lemma allInserts_isScript (left right : List T) :
    IsScript left right (allInserts left right) := by
  constructor
  · rw [allInserts, leftProj_append, leftProj_map_insL, leftProj_map_insR, List.append_nil]
  · rw [allInserts, rightProj_append, rightProj_map_insL, rightProj_map_insR,
      List.nil_append]

/-- Main correctness of `align`: its result is a valid alignment script of
`left` with `right`, and its sequential affine cost is minimal among all
such scripts. -/
lemma align_spec (p : Policy T) (left right : List T) :
    IsScript left right (align p left right) ∧
    ∀ s, IsScript left right s →
      scriptCost p .mutation (align p left right) ≤ scriptCost p .mutation s := by
  have hrow : RowOK p right [] left (right.foldl (stepRow p left) (initRow p left)) := by
    have := foldl_rows_ok p left right [] (initRow p left) (initRow_ok p left)
    simpa using this
  have hcell : CellOK p left right
      ((right.foldl (stepRow p left) (initRow p left)).getLastD initCell) := by
    have := rowOK_getLastD p right left [] _ initCell hrow
    simpa using this
  set fin := (right.foldl (stepRow p left) (initRow p left)).getLastD initCell with hfin
  obtain ⟨hmut, hinsL, hinsR⟩ := hcell
  -- the best score bounds the cost of every valid script
  have hmin : ∀ s, IsScript left right s →
      fin.extract_best.score ≤ (scriptCost p .mutation s : Score) := by
    intro s hs
    have hle := extract_best_score_le fin
    cases hks : lastKind s with
    | mutation => exact le_trans hle.1 (hmut.2 s hs hks)
    | insL => exact le_trans hle.2.1 (hinsL.2 s hs hks)
    | insR => exact le_trans hle.2.2 (hinsR.2 s hs hks)
  -- the best score is finite
  have hfinite : ∃ q : ℚ, fin.extract_best.score = (q : Score) := by
    have h1 := hmin (allInserts left right) (allInserts_isScript left right)
    cases hsc : fin.extract_best.score with
    | none =>
      rw [hsc] at h1
      exact absurd (top_le_iff.mp h1) WithTop.coe_ne_top
    | some q => exact ⟨q, WithTop.some_eq_coe q⟩
  obtain ⟨q, hq⟩ := hfinite
  -- achievability of the chosen layer
  have hach : IsScript left right fin.extract_best.path.reverse ∧
      scriptCost p .mutation fin.extract_best.path.reverse = q := by
    rcases extract_best_cases fin with hc | hc | hc
    · rw [hc] at hq ⊢
      obtain ⟨ha, hb, _⟩ := hmut.1 q hq
      exact ⟨ha, hb⟩
    · rw [hc] at hq ⊢
      obtain ⟨ha, hb, _⟩ := hinsL.1 q hq
      exact ⟨ha, hb⟩
    · rw [hc] at hq ⊢
      obtain ⟨ha, hb, _⟩ := hinsR.1 q hq
      exact ⟨ha, hb⟩
  have halign : align p left right = fin.extract_best.path.reverse := rfl
  refine ⟨by rw [halign]; exact hach.1, ?_⟩
  intro s hs
  have h1 := hmin s hs
  rw [hq] at h1
  have h2 : q ≤ scriptCost p .mutation s := WithTop.coe_le_coe.mp h1
  rw [halign, hach.2]
  exact h2

end Rows

/-- A small concrete policy used to witness the optimality theorem. -/
def witPolicy : Policy Nat :=
  ⟨fun _ b => if b then 1 else 2, fun l r => if l = r then 0 else 3⟩

/-- C1: for every scoring policy and every pair of token sequences, the
script returned by `align` has minimum total cost among all alignment
scripts transforming `left` into `right`, where the total cost sums
`mutation_score` over Mutation ops and `insert_score` over insert ops and
the `previous_is_same` flag is true exactly when the immediately preceding
operation is an insert on the same side. -/
theorem align_returns_minimum_cost_script {T : Type} (p : Policy T)
    (left right : List T) (s : List (Op T)) (hs : IsScript left right s) :
    scriptCost p .mutation (align p left right) ≤ scriptCost p .mutation s :=
  (align_spec p left right).2 s hs

theorem align_returns_minimum_cost_script_witness :
    IsScript [1, 2] [1] [Op.Mutation 1 1, Op.InsertLeft 2] ∧
    scriptCost witPolicy .mutation (align witPolicy [1, 2] [1]) ≤
      scriptCost witPolicy .mutation [Op.Mutation 1 1, Op.InsertLeft 2] :=
  ⟨⟨rfl, rfl⟩,
    align_returns_minimum_cost_script witPolicy [1, 2] [1]
      [Op.Mutation 1 1, Op.InsertLeft 2] ⟨rfl, rfl⟩⟩

/-- C2: in the script returned by `align`, the left-carrying operations
(Mutation and InsertLeft) carry exactly the tokens of `left` in order, and
the right-carrying operations (Mutation and InsertRight) carry exactly the
tokens of `right` in order; concatenating the texts of those payloads
therefore reproduces the corresponding input. -/
theorem align_projections_reproduce_inputs {T : Type} (p : Policy T)
    (left right : List T) :
    leftProj (align p left right) = left ∧
    rightProj (align p left right) = right :=
  (align_spec p left right).1

/-! ### The token model and the affine scoring policy (`src/tokenizer.rs`) -/

/-- `TokenType` from `src/tokenizer.rs`. -/
inductive TokenType where
  | WhiteSpace
  | SpecialCharacter
  | Word
  | BlockStart (indent : Nat)
  | BlockEnd (indent : Nat)
deriving DecidableEq

/-- `Token<'a, TokenType>` from `src/tokenizer.rs`: text slice, byte start
offset, kind tag. -/
structure Tok where
  text : Str
  start : Nat
  t : TokenType
deriving DecidableEq

/-- `is_whitespace` for tokens (the `types::Token` trait predicate; the
binary compares the kind tag against `TokenType::WhiteSpace`). -/
def Tok.is_whitespace (tok : Tok) : Bool := tok.t = TokenType.WhiteSpace

/-- `Token::insert_score` from `src/tokenizer.rs` (affine policy): 0.3 when
extending an insert run, 0.7 when starting one, plus 1 for a BlockEnd. -/
def Tok.insert_score (tok : Tok) (previous_is_same : Bool) : ℚ :=
  let add : ℚ := match tok.t with
    | TokenType.BlockEnd _ => 1
    | _ => 0
  if previous_is_same then 3/10 + add else 7/10 + add

/-- Rust `str::to_lowercase`, modelled per character (`Char.toLower`). -/
def strLower (s : Str) : Str := s.map Char.toLower

/-- `Token::mutation_score` from `src/tokenizer.rs`.  The result is `none`
exactly on the `panic!("This is impossible")` branch; every other path
returns a score.  Note the first guard compares the whole `TokenType`
values (derived `PartialEq`), indent fields included. -/
def Tok.mutation_score (self other : Tok) : Option ℚ :=
  if self.t ≠ other.t then some 100
  else
    match self.t with
    | TokenType.BlockStart indent | TokenType.BlockEnd indent =>
      match other.t with
      | TokenType.BlockStart o_indent | TokenType.BlockEnd o_indent =>
        some ((indent - o_indent : Nat) + (o_indent - indent : Nat) : ℚ)
      | _ => none
    | TokenType.WhiteSpace | TokenType.SpecialCharacter | TokenType.Word =>
      if strLower self.text = strLower other.text then some 0 else some 1

/-- The affine scoring policy, wiring `Token::insert_score` and
`Token::mutation_score` into the `AlignmentScoring` interface used by
`align` (the panic branch of `mutation_score` is unreachable, see
`mutation_score_total`; its value here is irrelevant). -/
def affinePolicy : Policy Tok :=
  ⟨Tok.insert_score, fun l r => (Tok.mutation_score l r).getD 0⟩

/-! ### The tokenizer (`src/tokenizer.rs`) -/

/-- `CharType` from `src/tokenizer.rs`. -/
inductive CharType where
  | WhiteSpace
  | Word
  | BlockChar
  | Other
deriving DecidableEq

/-- `char_type` from `src/tokenizer.rs`.  Rust's Unicode
`char::is_whitespace` / `char::is_alphanumeric` are modelled by Lean's
`Char.isWhitespace` / `Char.isAlphanum` (they agree on ASCII); the
tokenizer theorems below are proved for an arbitrary classifier, so they
cover the exact Rust tables as well. -/
def charType (c : Char) : CharType :=
  if c.isWhitespace then CharType.WhiteSpace
  else if c.isAlphanum || c = '_' then CharType.Word
  else if c = '(' || c = ')' || c = '[' || c = ']' || c = '{' || c = '}' then
    CharType.BlockChar
  else CharType.Other

/-- The kind tag emitted for a run of the given character class. -/
def tokTypeOf : CharType → TokenType
  | CharType.WhiteSpace => TokenType.WhiteSpace
  | CharType.Word => TokenType.Word
  | CharType.Other => TokenType.SpecialCharacter
  | CharType.BlockChar => TokenType.SpecialCharacter

/-- The substring after the final newline
(`whitespace_text.split('\n').last()`). -/
def afterLastNewline (s : Str) : Str :=
  (s.reverse.takeWhile (fun c => decide (c ≠ '\n'))).reverse

/-- `TokenParser` state: remaining source, byte position, queued markers
(the `VecDeque`), running previous indentation. -/
structure ParserState where
  rest : Str
  position : Nat
  next_tokens : List Tok
  prev_indentation : Nat
deriving DecidableEq

/-- `current_indentation` as computed by `TokenParser::next`: the byte
length of the whitespace text after its final newline, or the previous
indentation when the text has no newline. -/
def currentIndentation (text : Str) (prev : Nat) : Nat :=
  if text.contains '\n' then byteLen (afterLastNewline text) else prev

/-- The block-marker token enqueued on an indentation change: zero-length
text, start at the position after the whitespace run, `BlockEnd` carrying
the previous indentation on a decrease, `BlockStart` carrying the new
indentation otherwise. -/
def blockMarker (pos' prev cur : Nat) : Tok :=
  ⟨[], pos', if cur < prev then TokenType.BlockEnd prev else TokenType.BlockStart cur⟩

/-- The parsing arm of `TokenParser::next` (queue empty): consume one run,
emit its token, and possibly enqueue a block marker. -/
def parseStep (cls : Char → CharType) (rest : Str) (pos prev : Nat) :
    Option (Tok × ParserState) :=
  match rest with
  | [] => none
  | c :: cs =>
    let ct := cls c
    let run := if ct = CharType.BlockChar then [c]
               else (c :: cs).takeWhile (fun x => decide (cls x = ct))
    let rest' := (c :: cs).drop run.length
    let pos' := pos + byteLen run
    let tok : Tok := ⟨run, pos, tokTypeOf ct⟩
    if ct = CharType.WhiteSpace then
      let cur := currentIndentation run prev
      if cur ≠ prev then
        some (tok, ⟨rest', pos', [blockMarker pos' prev cur], cur⟩)
      else
        some (tok, ⟨rest', pos', [], prev⟩)
    else
      some (tok, ⟨rest', pos', [], prev⟩)

/-- `TokenParser::next`: pop a queued marker if any, else parse. -/
def pnext (cls : Char → CharType) (st : ParserState) : Option (Tok × ParserState) :=
  match st.next_tokens with
  | t :: q => some (t, ⟨st.rest, st.position, q, st.prev_indentation⟩)
  | [] => parseStep cls st.rest st.position st.prev_indentation

/-- The full (finite) token stream produced by iterating
`TokenParser::next`. -/
def runTokens (cls : Char → CharType) (st : ParserState) : List Tok :=
  match h : pnext cls st with
  | none => []
  | some (t, st') => t :: runTokens cls st'
termination_by 2 * st.rest.length + st.next_tokens.length
decreasing_by
  obtain ⟨rest, pos, queue, prev⟩ := st
  cases queue with
  | cons t0 q =>
    simp only [pnext] at h
    simp only [Option.some_inj, Prod.mk.injEq] at h
    obtain ⟨_, hst'⟩ := h
    subst hst'
    simp only [List.length_cons]
    omega
  | nil =>
    simp only [pnext] at h
    cases rest with
    | nil => simp [parseStep] at h
    | cons c cs =>
      have hrunlen : (1 : Nat) ≤ ((c :: cs).takeWhile
          (fun x => decide (cls x = cls c))).length := by
        rw [List.takeWhile_cons]
        simp
      simp only [parseStep] at h
      repeat' split at h
      all_goals cases h
      all_goals simp only [List.length_drop, List.length_cons, List.length_nil]
      all_goals omega

/-- `TokenParser::parse`: tokenize a source from the initial state. -/
def tokenize (cls : Char → CharType) (source : Str) : List Tok :=
  runTokens cls ⟨source, 0, [], 0⟩

/-- C9: `mutation_score` is total — it returns a score on every pair of
tokens and never reaches the `panic!("This is impossible")` branch: when
the marker arm is entered the kind tags were already equal, because any
pair with differing `TokenType` values scores 100 before the match. -/
theorem mutation_score_total (a b : Tok) : ∃ q : ℚ, Tok.mutation_score a b = some q := by
  unfold Tok.mutation_score
  by_cases h : a.t = b.t
  · rw [if_neg (by simp [h])]
    cases ht : a.t with
    | WhiteSpace =>
      by_cases hxt : strLower a.text = strLower b.text
      · exact ⟨0, by simp [hxt]⟩
      · exact ⟨1, by simp [hxt]⟩
    | SpecialCharacter =>
      by_cases hxt : strLower a.text = strLower b.text
      · exact ⟨0, by simp [hxt]⟩
      · exact ⟨1, by simp [hxt]⟩
    | Word =>
      by_cases hxt : strLower a.text = strLower b.text
      · exact ⟨0, by simp [hxt]⟩
      · exact ⟨1, by simp [hxt]⟩
    | BlockStart i =>
      have hb : b.t = TokenType.BlockStart i := by rw [← h, ht]
      rw [hb]
      exact ⟨_, rfl⟩
    | BlockEnd i =>
      have hb : b.t = TokenType.BlockEnd i := by rw [← h, ht]
      rw [hb]
      exact ⟨_, rfl⟩
  · rw [if_pos h]
    exact ⟨100, rfl⟩

/-- C3 (code bug): the affine `mutation_score` on `BlockStart(2)` versus
`BlockStart(4)` is 100, not the absolute indent difference 2, because the
first guard `self.t != other.t` compares whole `TokenType` values (indent
fields included), so two markers with different indents take the
mismatched-type branch and the `abs_diff` arm is dead code (it is reached
only with equal indents, where it returns 0). -/
theorem mutation_score_blockstart_indent_mismatch :
    Tok.mutation_score ⟨[], 8, TokenType.BlockStart 2⟩ ⟨[], 10, TokenType.BlockStart 4⟩ =
      some 100 ∧ (100 : ℚ) ≠ 2 := by
  constructor
  · rfl
  · norm_num

/-- `tokTypeOf` maps only the whitespace class to the whitespace tag. -/
lemma tokTypeOf_eq_whitespace (ct : CharType) :
    tokTypeOf ct = TokenType.WhiteSpace ↔ ct = CharType.WhiteSpace := by
  cases ct <;> simp [tokTypeOf]

/-- C6: whenever `TokenParser::next` parses (queue empty) and yields a
Whitespace token, with `cur` the recomputed indentation of its text: if
`cur` equals the running `prev_indentation` nothing is enqueued and the
indentation is unchanged; if it differs, the queue now holds exactly one
zero-length marker — `BlockEnd prev` when `cur < prev`, `BlockStart cur`
otherwise — `prev_indentation` is updated to `cur`, and the very next
`next` call yields exactly that marker. -/
theorem tokenizer_block_marker_step (cls : Char → CharType) (st : ParserState)
    (t : Tok) (st' : ParserState)
    (hq : st.next_tokens = [])
    (h : pnext cls st = some (t, st'))
    (hws : t.t = TokenType.WhiteSpace) :
    (currentIndentation t.text st.prev_indentation = st.prev_indentation →
      st'.next_tokens = [] ∧ st'.prev_indentation = st.prev_indentation) ∧
    (currentIndentation t.text st.prev_indentation ≠ st.prev_indentation →
      st'.next_tokens = [blockMarker (st.position + byteLen t.text) st.prev_indentation
          (currentIndentation t.text st.prev_indentation)] ∧
      st'.prev_indentation = currentIndentation t.text st.prev_indentation ∧
      pnext cls st' = some (blockMarker (st.position + byteLen t.text) st.prev_indentation
          (currentIndentation t.text st.prev_indentation),
        ⟨st'.rest, st'.position, [], st'.prev_indentation⟩)) := by
  obtain ⟨rest, pos, queue, prev⟩ := st
  simp only at hq
  subst hq
  simp only [pnext] at h
  cases rest with
  | nil => simp [parseStep] at h
  | cons c cs =>
    simp only [parseStep] at h
    by_cases hct : cls c = CharType.WhiteSpace
    · rw [if_pos hct] at h
      by_cases hcur : currentIndentation
          (if cls c = CharType.BlockChar then [c]
           else (c :: cs).takeWhile (fun x => decide (cls x = cls c))) prev = prev
      · rw [if_neg (by simpa using hcur)] at h
        cases h
        exact ⟨fun _ => ⟨rfl, rfl⟩, fun hne => absurd hcur hne⟩
      · rw [if_pos hcur] at h
        cases h
        exact ⟨fun heq => absurd heq hcur, fun _ => ⟨rfl, rfl, rfl⟩⟩
    · rw [if_neg hct] at h
      cases h
      exact absurd ((tokTypeOf_eq_whitespace (cls c)).mp hws) hct

/-- Concrete parser state for the block-marker witness: the source
`"\n  x"` at position 0 with empty queue and indentation 0. -/
def wSt : ParserState := ⟨['\n', ' ', ' ', 'x'], 0, [], 0⟩

/-- The whitespace token `"\n  "` parsed first from `wSt`. -/
def wTok : Tok := ⟨['\n', ' ', ' '], 0, TokenType.WhiteSpace⟩

/-- The parser state after `wTok`: a queued `BlockStart 2` marker. -/
def wSt' : ParserState := ⟨['x'], 3, [⟨[], 3, TokenType.BlockStart 2⟩], 2⟩

/-- Block markers: the synthetic BlockStart/BlockEnd tokens. -/
def isBlockTok : TokenType → Bool
  | TokenType.BlockStart _ => true
  | TokenType.BlockEnd _ => true
  | _ => false

/-- Concatenation of the texts of the non-block tokens of a stream. -/
def nonBlockText (ts : List Tok) : Str :=
  ts.foldr (fun t acc => (if isBlockTok t.t then [] else t.text) ++ acc) []

lemma nonBlockText_nil : nonBlockText [] = [] := rfl

lemma nonBlockText_cons (t : Tok) (ts : List Tok) :
    nonBlockText (t :: ts) = (if isBlockTok t.t then [] else t.text) ++ nonBlockText ts := rfl

lemma tokTypeOf_not_block (ct : CharType) : isBlockTok (tokTypeOf ct) = false := by
  cases ct <;> rfl

lemma drop_length_takeWhile {α : Type} (p : α → Bool) :
    ∀ l : List α, List.drop (l.takeWhile p).length l = l.dropWhile p := by
  intro l
  induction l with
  | nil => rfl
  | cons c cs ih =>
    rw [List.takeWhile_cons, List.dropWhile_cons]
    cases hp : p c with
    | true => simpa [hp] using ih
    | false => simp [hp]

lemma runTokens_eq_none (cls : Char → CharType) (st : ParserState)
    (h : pnext cls st = none) : runTokens cls st = [] := by
  rw [runTokens.eq_def]
  split
  · rfl
  · rename_i t st' heq
    rw [h] at heq
    exact absurd heq (by simp)

lemma runTokens_eq_some (cls : Char → CharType) (st : ParserState) (t : Tok)
    (st' : ParserState) (h : pnext cls st = some (t, st')) :
    runTokens cls st = t :: runTokens cls st' := by
  rw [runTokens.eq_def]
  split
  · rename_i heq
    rw [h] at heq
    exact absurd heq (by simp)
  · rename_i t2 st2 heq
    rw [h] at heq
    obtain ⟨h1, h2⟩ := Prod.mk.injEq .. |>.mp (Option.some_inj.mp heq)
    rw [h1, h2]

lemma pnext_eq_none (cls : Char → CharType) (st : ParserState)
    (h : pnext cls st = none) : st.rest = [] ∧ st.next_tokens = [] := by
  obtain ⟨rest, pos, queue, prev⟩ := st
  cases queue with
  | cons t0 q => simp [pnext] at h
  | nil =>
    cases rest with
    | nil => exact ⟨rfl, rfl⟩
    | cons c cs =>
      simp only [pnext, parseStep] at h
      by_cases hct : cls c = CharType.WhiteSpace
      · rw [if_pos hct] at h
        repeat' split at h
        all_goals simp at h
      · rw [if_neg hct] at h
        simp at h

/-- What one `TokenParser::next` call can do: pop the queue head, or parse
a nonempty run (the emitted token is never a block marker, its text
prepends onto the new remaining source, and at most one zero-length
marker is enqueued). -/
lemma pnext_some_cases (cls : Char → CharType) (st : ParserState) (t : Tok)
    (st' : ParserState) (h : pnext cls st = some (t, st')) :
    (∃ q, st.next_tokens = t :: q ∧ st'.rest = st.rest ∧ st'.next_tokens = q) ∨
    (st.next_tokens = [] ∧ st'.next_tokens.length ≤ 1 ∧
      (∀ tk ∈ st'.next_tokens, tk.text = []) ∧
      isBlockTok t.t = false ∧ t.text ++ st'.rest = st.rest ∧ t.text ≠ []) := by
  obtain ⟨rest, pos, queue, prev⟩ := st
  cases queue with
  | cons t0 q =>
    left
    simp only [pnext] at h
    cases h
    exact ⟨q, rfl, rfl, rfl⟩
  | nil =>
    right
    cases rest with
    | nil => simp [pnext, parseStep] at h
    | cons c cs =>
      simp only [pnext, parseStep] at h
      have hconcat : ∀ hbc : ¬ cls c = CharType.BlockChar,
          ((c :: cs).takeWhile (fun x => decide (cls x = cls c))) ++
            List.drop ((c :: cs).takeWhile (fun x => decide (cls x = cls c))).length
              (c :: cs) = c :: cs := by
        intro _
        rw [drop_length_takeWhile]
        exact List.takeWhile_append_dropWhile _ _
      have hne : ((c :: cs).takeWhile (fun x => decide (cls x = cls c))) ≠ [] := by
        rw [List.takeWhile_cons]
        simp
      by_cases hct : cls c = CharType.WhiteSpace
      · have hbc : ¬ cls c = CharType.BlockChar := by rw [hct]; simp
        rw [if_neg hbc, if_pos hct] at h
        split at h
        · cases h
          refine ⟨rfl, by simp, ?_, tokTypeOf_not_block _, hconcat hbc, hne⟩
          intro tk htk
          simp only [List.mem_singleton] at htk
          subst htk
          rfl
        · cases h
          exact ⟨rfl, by simp, by simp, tokTypeOf_not_block _, hconcat hbc, hne⟩
      · rw [if_neg hct] at h
        by_cases hbc : cls c = CharType.BlockChar
        · rw [if_pos hbc] at h
          cases h
          exact ⟨rfl, by simp, by simp, tokTypeOf_not_block _, rfl, by simp⟩
        · rw [if_neg hbc] at h
          cases h
          exact ⟨rfl, by simp, by simp, tokTypeOf_not_block _, hconcat hbc, hne⟩

/-- Fuel-indexed induction for the tokenizer round trip: provided every
queued token has empty text, the concatenated non-block text of the
remaining stream is exactly the remaining source. -/
lemma runTokens_text (cls : Char → CharType) :
    ∀ (n : Nat) (st : ParserState),
      2 * st.rest.length + st.next_tokens.length ≤ n →
      (∀ tk ∈ st.next_tokens, tk.text = []) →
      nonBlockText (runTokens cls st) = st.rest := by
  intro n
  induction n with
  | zero =>
    intro st hm _
    have hrest : st.rest = [] := List.length_eq_zero.mp (by omega)
    have hqe : st.next_tokens = [] := List.length_eq_zero.mp (by omega)
    have hpn : pnext cls st = none := by
      simp only [pnext, hqe, hrest, parseStep]
    rw [runTokens_eq_none cls st hpn, nonBlockText_nil, hrest]
  | succ n ih =>
    intro st hm hq
    cases hpn : pnext cls st with
    | none =>
      obtain ⟨hrest, _⟩ := pnext_eq_none cls st hpn
      rw [runTokens_eq_none cls st hpn, nonBlockText_nil, hrest]
    | some pair =>
      obtain ⟨t, st'⟩ := pair
      rw [runTokens_eq_some cls st t st' hpn, nonBlockText_cons]
      rcases pnext_some_cases cls st t st' hpn with
        ⟨q, hqeq, hrest', hq'⟩ | ⟨hqe, hlen, hq', hblk, hcat, htne⟩
      · have htx : t.text = [] := hq t (by rw [hqeq]; exact List.mem_cons_self t q)
        have hih := ih st' (by rw [hrest', hq']; rw [hqeq] at hm; simp at hm; omega)
          (fun tk htk => hq tk (by rw [hqeq]; exact List.mem_cons_of_mem t (hq' ▸ htk)))
        rw [hih, hrest', htx]
        split <;> rfl
      · have hih := ih st' (by
          have : t.text.length + st'.rest.length = st.rest.length := by
            rw [← hcat]; simp
          have htl : 1 ≤ t.text.length := by
            cases htt : t.text with
            | nil => exact absurd htt htne
            | cons a b => simp
          rw [hqe] at hm
          simp at hm
          omega) hq'
        rw [hih, hblk]
        simpa using hcat

/-- C7: concatenating the text of every non-block token yielded by the
tokenizer, in yield order, reproduces the source string byte-for-byte
(block markers contribute the empty string).  Proved for an arbitrary
character classifier, hence in particular for `charType`. -/
theorem tokenizer_nonblock_concat (cls : Char → CharType) (source : Str) :
    nonBlockText (tokenize cls source) = source := by
  rw [tokenize]
  exact runTokens_text cls (2 * source.length) ⟨source, 0, [], 0⟩ (by simp) (by simp)

theorem tokenizer_block_marker_step_witness :
    (currentIndentation wTok.text wSt.prev_indentation = wSt.prev_indentation →
      wSt'.next_tokens = [] ∧ wSt'.prev_indentation = wSt.prev_indentation) ∧
    (currentIndentation wTok.text wSt.prev_indentation ≠ wSt.prev_indentation →
      wSt'.next_tokens = [blockMarker (wSt.position + byteLen wTok.text) wSt.prev_indentation
          (currentIndentation wTok.text wSt.prev_indentation)] ∧
      wSt'.prev_indentation = currentIndentation wTok.text wSt.prev_indentation ∧
      pnext charType wSt' = some (blockMarker (wSt.position + byteLen wTok.text)
          wSt.prev_indentation (currentIndentation wTok.text wSt.prev_indentation),
        ⟨wSt'.rest, wSt'.position, [], wSt'.prev_indentation⟩)) :=
  tokenizer_block_marker_step charType wSt wTok wSt' rfl (by decide) rfl

/-! ### The interleaver (`Alignment::interleave_tokens`, `src/alignment.rs`) -/

section Interleaver

variable {T : Type}

/-- Anchor update in `interleave_tokens`:
`position = op.payload().cloned().or(position)`. -/
def updAnchor (tok : Option T) (old : Option T) : Option T :=
  match tok with
  | some x => some x
  | none => old

/-- The emit loop of `interleave_tokens` for one side: while the head of
the secondary iterator starts strictly before the anchor, emit it; returns
(emitted, remaining).  With no anchor yet, nothing is emitted. -/
def anchorEmit (f : T → Nat) (anchor : Option T) (ws : List T) : List T × List T :=
  match anchor with
  | none => ([], ws)
  | some apos => (ws.takeWhile (fun w => decide (f w < f apos)),
                  ws.dropWhile (fun w => decide (f w < f apos)))

lemma updAnchor_some (x : T) (o : Option T) : updAnchor (some x) o = some x := rfl

lemma updAnchor_none (o : Option T) : updAnchor none o = o := rfl

lemma anchorEmit_none_fst (f : T → Nat) (ws : List T) :
    (anchorEmit f none ws).1 = [] := rfl

lemma anchorEmit_none_snd (f : T → Nat) (ws : List T) :
    (anchorEmit f none ws).2 = ws := rfl

lemma anchorEmit_some_fst (f : T → Nat) (a : T) (ws : List T) :
    (anchorEmit f (some a) ws).1 = ws.takeWhile (fun w => decide (f w < f a)) := rfl

lemma anchorEmit_some_snd (f : T → Nat) (a : T) (ws : List T) :
    (anchorEmit f (some a) ws).2 = ws.dropWhile (fun w => decide (f w < f a)) := rfl

/-- The loop of `interleave_tokens`: walk the committed script in order;
before re-emitting each operation, update the right (then the left) anchor
from the operation's payloads and flush every secondary token whose start
offset is strictly below the anchor, right side checked first; after the
script is exhausted, flush the remaining right then the remaining left
secondaries. -/
def interleaveAux (f : T → Nat) :
    List (Op T) → List T → List T → Option T → Option T → List (Op T)
  | [], wl, wr, _, _ => wr.map Op.InsertRight ++ wl.map Op.InsertLeft
  | a :: rest, wl, wr, lp, rp =>
    (anchorEmit f (updAnchor a.rightTok rp) wr).1.map Op.InsertRight ++
      (anchorEmit f (updAnchor a.leftTok lp) wl).1.map Op.InsertLeft ++
      a :: interleaveAux f rest (anchorEmit f (updAnchor a.leftTok lp) wl).2
        (anchorEmit f (updAnchor a.rightTok rp) wr).2
        (updAnchor a.leftTok lp) (updAnchor a.rightTok rp)

/-- `Alignment::interleave_tokens` (`add_tokens` in `src/main.rs`): splice
the two secondary (whitespace) sequences back into an alignment script by
start-offset anchors. -/
def interleave (f : T → Nat) (ops : List (Op T)) (ws_l ws_r : List T) : List (Op T) :=
  interleaveAux f ops ws_l ws_r none none

lemma leftTok_mut (l r : T) : (Op.Mutation l r).leftTok = some l := rfl

lemma leftTok_insL (l : T) : (Op.InsertLeft l).leftTok = some l := rfl

lemma leftTok_insR (r : T) : (Op.InsertRight r).leftTok = (none : Option T) := rfl

lemma rightTok_mut (l r : T) : (Op.Mutation l r).rightTok = some r := rfl

lemma rightTok_insL (l : T) : (Op.InsertLeft l).rightTok = (none : Option T) := rfl

lemma rightTok_insR (r : T) : (Op.InsertRight r).rightTok = some r := rfl

lemma interleaveAux_nil_secondaries (f : T → Nat) :
    ∀ (ops : List (Op T)) (lp rp : Option T),
      interleaveAux f ops [] [] lp rp = ops := by
  intro ops
  induction ops with
  | nil => intro lp rp; rfl
  | cons a rest ih =>
    intro lp rp
    rw [interleaveAux]
    have e1 : ∀ o : Option T, (anchorEmit f o ([] : List T)).1 = [] := by
      intro o; cases o <;> rfl
    have e2 : ∀ o : Option T, (anchorEmit f o ([] : List T)).2 = [] := by
      intro o; cases o <;> rfl
    rw [e1, e1, e2, e2, ih]
    rfl

/-- C10: interleaving with nothing to interleave is the identity — with
both secondary sequences empty, `interleave_tokens` returns exactly the
operations of the input script in order. -/
theorem interleave_empty_secondaries_id (f : T → Nat) (ops : List (Op T)) :
    interleave f ops [] [] = ops :=
  interleaveAux_nil_secondaries f ops none none

lemma leftProj_cons_mut (l r : T) (s : List (Op T)) :
    leftProj (Op.Mutation l r :: s) = l :: leftProj s := rfl

lemma leftProj_cons_insL (l : T) (s : List (Op T)) :
    leftProj (Op.InsertLeft l :: s) = l :: leftProj s := rfl

lemma leftProj_cons_insR (r : T) (s : List (Op T)) :
    leftProj (Op.InsertRight r :: s) = leftProj s := rfl

lemma rightProj_cons_mut (l r : T) (s : List (Op T)) :
    rightProj (Op.Mutation l r :: s) = r :: rightProj s := rfl

lemma rightProj_cons_insL (l : T) (s : List (Op T)) :
    rightProj (Op.InsertLeft l :: s) = rightProj s := rfl

lemma rightProj_cons_insR (r : T) (s : List (Op T)) :
    rightProj (Op.InsertRight r :: s) = r :: rightProj s := rfl

lemma takeWhile_nil_of_none {α : Type} (p : α → Bool) :
    ∀ l : List α, (∀ x ∈ l, p x = false) → l.takeWhile p = [] := by
  intro l h
  cases l with
  | nil => rfl
  | cons c cs =>
    rw [List.takeWhile_cons, h c (List.mem_cons_self c cs)]
    simp

lemma dropWhile_self_of_none {α : Type} (p : α → Bool) :
    ∀ l : List α, (∀ x ∈ l, p x = false) → l.dropWhile p = l := by
  intro l h
  cases l with
  | nil => rfl
  | cons c cs =>
    rw [List.dropWhile_cons, h c (List.mem_cons_self c cs)]
    simp

/-- After dropping the secondaries below a bound from a start-sorted list,
every remaining secondary is at or above the bound. -/
lemma dropWhile_lt_ge (f : T → Nat) (c : Nat) :
    ∀ wl : List T, List.Pairwise (fun a b => f a ≤ f b) wl →
      ∀ w ∈ wl.dropWhile (fun w => decide (f w < c)), ¬ f w < c := by
  intro wl
  induction wl with
  | nil => intro _ w hw; simp at hw
  | cons x xs ih =>
    intro hp w hw
    obtain ⟨hx1, hx2⟩ := List.pairwise_cons.mp hp
    rw [List.dropWhile_cons] at hw
    by_cases hx : f x < c
    · rw [if_pos (by simpa using hx)] at hw
      exact ih hx2 w hw
    · rw [if_neg (by simpa using hx)] at hw
      rcases List.mem_cons.mp hw with rfl | hw'
      · exact hx
      · have := hx1 w hw'
        omega

/-- The positional merge performed by the interleaver: before each
significant token, splice in the secondaries with strictly smaller start
offsets; after the last one, splice in the rest. -/
def mergeByStart (f : T → Nat) : List T → List T → List T
  | [], ws => ws
  | s :: ss, ws =>
    ws.takeWhile (fun w => decide (f w < f s)) ++
      s :: mergeByStart f ss (ws.dropWhile (fun w => decide (f w < f s)))

/-- Left projection of the interleaver output: provided the left
secondaries are start-sorted and already drained with respect to the
current left anchor, the output's left payload sequence is the positional
merge of the script's left payloads with the left secondaries.  (The right
secondaries and the right anchor never contribute left payloads.) -/
lemma interleaveAux_leftProj (f : T → Nat) :
    ∀ (ops : List (Op T)) (wl wr : List T) (lp rp : Option T),
      List.Pairwise (fun a b => f a ≤ f b) wl →
      (∀ x, lp = some x → ∀ w ∈ wl, ¬ f w < f x) →
      leftProj (interleaveAux f ops wl wr lp rp) = mergeByStart f (leftProj ops) wl := by
  intro ops
  induction ops with
  | nil =>
    intro wl wr lp rp _ _
    simp only [interleaveAux, leftProj_append, leftProj_map_insR, leftProj_map_insL,
      List.nil_append, leftProj_nil, mergeByStart]
  | cons a rest ih =>
    intro wl wr lp rp hsort hdrain
    have hdrop : ∀ (l : T), ∀ x, some l = some x →
        ∀ w ∈ wl.dropWhile (fun w => decide (f w < f l)), ¬ f w < f x := by
      intro l x hx w hw
      have hxl : l = x := by simpa using hx
      rw [← hxl]
      exact dropWhile_lt_ge f (f l) wl hsort w hw
    cases a with
    | Mutation l r =>
      simp only [interleaveAux, leftTok_mut, rightTok_mut, updAnchor_some,
        anchorEmit_some_fst, anchorEmit_some_snd, leftProj_append, leftProj_map_insR,
        leftProj_map_insL, leftProj_cons_mut, List.nil_append, List.append_nil]
      rw [mergeByStart,
        ih _ _ (some l) (some r) (hsort.sublist (List.dropWhile_sublist _)) (hdrop l)]
    | InsertLeft l =>
      simp only [interleaveAux, leftTok_insL, rightTok_insL, updAnchor_some,
        updAnchor_none, anchorEmit_some_fst, anchorEmit_some_snd, leftProj_append,
        leftProj_map_insR, leftProj_map_insL, leftProj_cons_insL, List.nil_append,
        List.append_nil]
      rw [mergeByStart,
        ih _ _ (some l) rp (hsort.sublist (List.dropWhile_sublist _)) (hdrop l)]
    | InsertRight r =>
      have hnone : ∀ x, lp = some x → ∀ w ∈ wl,
          (fun w => decide (f w < f x)) w = false := by
        intro x hx w hw
        simpa using hdrain x hx w hw
      cases lp with
      | none =>
        simp only [interleaveAux, leftTok_insR, rightTok_insR, updAnchor_some,
          updAnchor_none, anchorEmit_some_fst, anchorEmit_some_snd, anchorEmit_none_fst,
          anchorEmit_none_snd, leftProj_append, leftProj_map_insR, leftProj_map_insL,
          leftProj_cons_insR, List.nil_append, List.append_nil]
        exact ih _ _ none (some r) hsort (by intro x hx; exact absurd hx (by simp))
      | some x =>
        simp only [interleaveAux, leftTok_insR, rightTok_insR, updAnchor_some,
          updAnchor_none, anchorEmit_some_fst, anchorEmit_some_snd, leftProj_append,
          leftProj_map_insR, leftProj_map_insL, leftProj_cons_insR, List.nil_append,
          List.append_nil]
        rw [takeWhile_nil_of_none _ wl (hnone x rfl),
          dropWhile_self_of_none _ wl (hnone x rfl)]
        exact ih _ _ (some x) (some r) hsort hdrain

/-- Right projection of the interleaver output, symmetrically. -/
lemma interleaveAux_rightProj (f : T → Nat) :
    ∀ (ops : List (Op T)) (wl wr : List T) (lp rp : Option T),
      List.Pairwise (fun a b => f a ≤ f b) wr →
      (∀ x, rp = some x → ∀ w ∈ wr, ¬ f w < f x) →
      rightProj (interleaveAux f ops wl wr lp rp) = mergeByStart f (rightProj ops) wr := by
  intro ops
  induction ops with
  | nil =>
    intro wl wr lp rp _ _
    simp only [interleaveAux, rightProj_append, rightProj_map_insR, rightProj_map_insL,
      List.append_nil, rightProj_nil, mergeByStart]
  | cons a rest ih =>
    intro wl wr lp rp hsort hdrain
    have hdrop : ∀ (r : T), ∀ x, some r = some x →
        ∀ w ∈ wr.dropWhile (fun w => decide (f w < f r)), ¬ f w < f x := by
      intro r x hx w hw
      have hxr : r = x := by simpa using hx
      rw [← hxr]
      exact dropWhile_lt_ge f (f r) wr hsort w hw
    cases a with
    | Mutation l r =>
      simp only [interleaveAux, leftTok_mut, rightTok_mut, updAnchor_some,
        anchorEmit_some_fst, anchorEmit_some_snd, rightProj_append, rightProj_map_insR,
        rightProj_map_insL, rightProj_cons_mut, List.nil_append, List.append_nil]
      rw [mergeByStart,
        ih _ _ (some l) (some r) (hsort.sublist (List.dropWhile_sublist _)) (hdrop r)]
    | InsertRight r =>
      simp only [interleaveAux, leftTok_insR, rightTok_insR, updAnchor_some,
        updAnchor_none, anchorEmit_some_fst, anchorEmit_some_snd, rightProj_append,
        rightProj_map_insR, rightProj_map_insL, rightProj_cons_insR, List.nil_append,
        List.append_nil]
      rw [mergeByStart,
        ih _ _ lp (some r) (hsort.sublist (List.dropWhile_sublist _)) (hdrop r)]
    | InsertLeft l =>
      have hnone : ∀ x, rp = some x → ∀ w ∈ wr,
          (fun w => decide (f w < f x)) w = false := by
        intro x hx w hw
        simpa using hdrain x hx w hw
      cases rp with
      | none =>
        simp only [interleaveAux, leftTok_insL, rightTok_insL, updAnchor_some,
          updAnchor_none, anchorEmit_some_fst, anchorEmit_some_snd, anchorEmit_none_fst,
          anchorEmit_none_snd, rightProj_append, rightProj_map_insR, rightProj_map_insL,
          rightProj_cons_insL, List.nil_append, List.append_nil]
        exact ih _ _ (some l) none hsort (by intro x hx; exact absurd hx (by simp))
      | some x =>
        simp only [interleaveAux, leftTok_insL, rightTok_insL, updAnchor_some,
          updAnchor_none, anchorEmit_some_fst, anchorEmit_some_snd, rightProj_append,
          rightProj_map_insR, rightProj_map_insL, rightProj_cons_insL, List.nil_append,
          List.append_nil]
        rw [takeWhile_nil_of_none _ wr (hnone x rfl),
          dropWhile_self_of_none _ wr (hnone x rfl)]
        exact ih _ _ (some l) (some x) hsort hdrain

lemma filter_all_of_filter_not_nil {α : Type} (p : α → Bool) :
    ∀ l : List α, l.filter (fun x => ! p x) = [] → l.filter p = l := by
  intro l
  induction l with
  | nil => intro _; rfl
  | cons c cs ih =>
    intro h
    cases hc : p c with
    | false =>
      rw [List.filter_cons_of_pos (by simp [hc])] at h
      simp at h
    | true =>
      rw [List.filter_cons_of_neg (by simp [hc])] at h
      rw [List.filter_cons_of_pos (by simp [hc]), ih h]

/-- Pushing a secondary that starts strictly before the first significant
token through the merge. -/
lemma mergeByStart_cons_ws (f : T → Nat) (s : T) (ss : List T) (t : T) (ws' : List T)
    (h : f t < f s) :
    mergeByStart f (s :: ss) (t :: ws') = t :: mergeByStart f (s :: ss) ws' := by
  rw [mergeByStart, mergeByStart, List.takeWhile_cons, List.dropWhile_cons]
  simp [h]

/-- The positional merge of the two halves of a partition restores the
original sequence, provided starts are non-decreasing and no whitespace
token shares a start offset with a significant token. -/
lemma mergeByStart_filter (f : T → Nat) (wsP : T → Bool) :
    ∀ full : List T,
      List.Pairwise (fun a b => f a ≤ f b) full →
      (∀ a ∈ full, ∀ b ∈ full, wsP a = true → wsP b = false → f a ≠ f b) →
      mergeByStart f (full.filter (fun t => ! wsP t)) (full.filter wsP) = full := by
  intro full
  induction full with
  | nil => intro _ _; rfl
  | cons t rest ih =>
    intro hp hd
    obtain ⟨hp1, hp2⟩ := List.pairwise_cons.mp hp
    have hd' : ∀ a ∈ rest, ∀ b ∈ rest, wsP a = true → wsP b = false → f a ≠ f b :=
      fun a ha b hb => hd a (List.mem_cons_of_mem t ha) b (List.mem_cons_of_mem t hb)
    cases hw : wsP t with
    | false =>
      rw [List.filter_cons_of_pos (by simp [hw]), List.filter_cons_of_neg (by simp [hw])]
      rw [mergeByStart]
      have hwsided : ∀ w ∈ rest.filter wsP, (fun w => decide (f w < f t)) w = false := by
        intro w hw'
        have hmem : w ∈ rest := List.mem_of_mem_filter hw'
        have := hp1 w hmem
        simp
        omega
      rw [takeWhile_nil_of_none _ _ hwsided, dropWhile_self_of_none _ _ hwsided,
        List.nil_append, ih hp2 hd']
    | true =>
      rw [List.filter_cons_of_neg (by simp [hw]), List.filter_cons_of_pos (by simp [hw])]
      cases hsig : rest.filter (fun x => ! wsP x) with
      | nil =>
        rw [mergeByStart, filter_all_of_filter_not_nil wsP rest hsig]
      | cons s ss =>
        have hs_filter : s ∈ rest.filter (fun x => ! wsP x) := by
          rw [hsig]
          exact List.mem_cons_self s ss
        have hs_mem : s ∈ rest := List.mem_of_mem_filter hs_filter
        have hws_s : wsP s = false := by
          have := List.of_mem_filter hs_filter
          simpa using this
        have hlt : f t < f s :=
          lt_of_le_of_ne (hp1 s hs_mem)
            (hd t (List.mem_cons_self t rest) s (List.mem_cons_of_mem t hs_mem) hw hws_s)
        rw [mergeByStart_cons_ws f s ss t _ hlt, ← hsig, ih hp2 hd']

end Interleaver

/-- C8: interleaver order preservation.  Let the full left and right token
sequences have non-decreasing start offsets, with no whitespace token
sharing a start with a significant token; partition each into significant
(non-whitespace) and whitespace halves.  For every alignment script over
the significant halves, the script returned by `interleave` projects on the
left to the full left sequence and on the right to the full right
sequence: every secondary token appears exactly once, in place, and no
significant token is reordered. -/
lemma interleave_partition_merge {T : Type} (f : T → Nat) (wsP : T → Bool)
    (Lfull Rfull : List T) (script : List (Op T))
    (hLsort : List.Pairwise (fun a b => f a ≤ f b) Lfull)
    (hRsort : List.Pairwise (fun a b => f a ≤ f b) Rfull)
    (hLd : ∀ a ∈ Lfull, ∀ b ∈ Lfull, wsP a = true → wsP b = false → f a ≠ f b)
    (hRd : ∀ a ∈ Rfull, ∀ b ∈ Rfull, wsP a = true → wsP b = false → f a ≠ f b)
    (hsl : leftProj script = Lfull.filter (fun t => ! wsP t))
    (hsr : rightProj script = Rfull.filter (fun t => ! wsP t)) :
    leftProj (interleave f script (Lfull.filter wsP) (Rfull.filter wsP)) = Lfull ∧
    rightProj (interleave f script (Lfull.filter wsP) (Rfull.filter wsP)) = Rfull := by
  constructor
  · rw [interleave, interleaveAux_leftProj f script _ _ none none
      (hLsort.sublist (List.filter_sublist _))
      (by intro x hx; exact absurd hx (by simp)), hsl]
    exact mergeByStart_filter f wsP Lfull hLsort hLd
  · rw [interleave, interleaveAux_rightProj f script _ _ none none
      (hRsort.sublist (List.filter_sublist _))
      (by intro x hx; exact absurd hx (by simp)), hsr]
    exact mergeByStart_filter f wsP Rfull hRsort hRd

/-! ### The renderer (`DiffLineOutput` / `Alignment::output_lines`, `src/alignment.rs`) -/

/-- ANSI red markup (`colored::Colorize::red`). -/
def redStr (s : Str) : Str := "\x1b[31m".toList ++ s ++ "\x1b[0m".toList

/-- ANSI green markup (`colored::Colorize::green`). -/
def greenStr (s : Str) : Str := "\x1b[32m".toList ++ s ++ "\x1b[0m".toList

/-- ANSI red strikethrough markup (`.red().strikethrough()`). -/
def redStrikeStr (s : Str) : Str := "\x1b[9;31m".toList ++ s ++ "\x1b[0m".toList

/-- `OutputLine` from `src/alignment.rs`. -/
inductive OutputLine where
  | Same (line : Str)
  | Change (left : Option Str) (right : Option Str)
deriving DecidableEq

/-- `DiffLineOutput` from `src/alignment.rs`: the two line buffers, the
equality flag and the accumulated output lines. -/
structure DiffLineOutput where
  left : Str
  right : Str
  equal : Bool
  out : List OutputLine
deriving DecidableEq

/-- `DiffLineOutput::new()`. -/
def DiffLineOutput.new : DiffLineOutput := ⟨[], [], true, []⟩

/-- `DiffLineOutput::clear`. -/
def DiffLineOutput.clear (o : DiffLineOutput) : DiffLineOutput :=
  { o with left := [], right := [], equal := true }

/-- `DiffLineOutput::flush`: a Same line from the right buffer when the
flag is still set, otherwise a Change line whose sides are present only
when they contain a non-whitespace character. -/
def DiffLineOutput.flush (o : DiffLineOutput) : DiffLineOutput :=
  let line := if o.equal then OutputLine.Same o.right
    else OutputLine.Change
      (if o.left.any (fun c => ! c.isWhitespace) then some o.left else none)
      (if o.right.any (fun c => ! c.isWhitespace) then some o.right else none)
  { o.clear with out := o.out ++ [line] }

/-- `DiffLineOutput::add_same`: the text to the right buffer, matching
spaces to the left buffer; the equal flag is untouched. -/
def DiffLineOutput.add_same (o : DiffLineOutput) (line : Str) : DiffLineOutput :=
  { o with left := o.left ++ line.map (fun _ => ' '), right := o.right ++ line }

/-- `DiffLineOutput::add_mutation`: marked-removed left text, marked-added
right text, the shorter side padded with spaces by byte length. -/
def DiffLineOutput.add_mutation (o : DiffLineOutput) (l r : Str) : DiffLineOutput :=
  { o with
    equal := false
    left := (o.left ++ redStr l) ++
      (if byteLen l < byteLen r then List.replicate (byteLen r - byteLen l) ' ' else [])
    right := (o.right ++ greenStr r) ++
      (if byteLen l < byteLen r then [] else List.replicate (byteLen l - byteLen r) ' ') }

/-- `DiffLineOutput::insert_left`. -/
def DiffLineOutput.insert_left (o : DiffLineOutput) (text : Str) : DiffLineOutput :=
  { o with
    equal := false
    left := o.left ++ text.map (fun _ => ' ')
    right := o.right ++ redStrikeStr text }

/-- `DiffLineOutput::insert_right`. -/
def DiffLineOutput.insert_right (o : DiffLineOutput) (text : Str) : DiffLineOutput :=
  { o with
    equal := false
    left := o.left ++ text.map (fun _ => ' ')
    right := o.right ++ greenStr text }

/-- `DiffLineOutput::insert_right_space`: whitespace copied verbatim to
both buffers; note it sets `equal = false` (the `// TODO?` line). -/
def DiffLineOutput.insert_right_space (o : DiffLineOutput) (text : Str) : DiffLineOutput :=
  { o with equal := false, left := o.left ++ text, right := o.right ++ text }

/-- The InsertRight-whitespace-with-newlines path of `output_lines`: the
first segment is copied, then for each later segment the line is flushed
before copying. -/
def renderSegs (o : DiffLineOutput) (segs : List Str) : DiffLineOutput :=
  match segs with
  | [] => o
  | first :: restSegs =>
    restSegs.foldl (fun acc seg => (acc.flush).insert_right_space seg)
      (o.insert_right_space first)

/-- One iteration of the loop of `Alignment::output_lines`: the state is
the `DiffLineOutput` plus the `prev_was_space` flag. -/
def outputStep (st : DiffLineOutput × Bool) (operation : Op Tok) : DiffLineOutput × Bool :=
  match operation with
  | Op.Mutation l r =>
    (if l.text = r.text then (st.1).add_same r.text
     else (st.1).add_mutation l.text r.text, false)
  | Op.InsertLeft l =>
    if l.is_whitespace then
      (if st.2 = false then (st.1).insert_left [' '] else st.1, true)
    else ((st.1).insert_left l.text, false)
  | Op.InsertRight r =>
    if r.is_whitespace then
      (if r.text.contains '\n' then renderSegs (st.1) (r.text.splitOn '\n')
       else (st.1).insert_right_space r.text, true)
    else ((st.1).insert_right r.text, false)

/-- `Alignment::output_lines`: run the loop from a fresh buffer with
`prev_was_space = true`, then a final flush. -/
def outputLines (ops : List (Op Tok)) : List OutputLine :=
  ((ops.foldl outputStep (DiffLineOutput.new, true)).1.flush).out

/-- The significant half of `partition(|x| x.t != TokenType::WhiteSpace)`. -/
def significantToks (ts : List Tok) : List Tok :=
  ts.filter (fun x => ! x.is_whitespace)

/-- The whitespace half of the partition. -/
def whitespaceToks (ts : List Tok) : List Tok :=
  ts.filter (fun x => x.is_whitespace)

/-- The full pipeline of `main`: tokenize both sources, align the
significant tokens under the affine policy, and interleave the whitespace
back. -/
def pipelineOps (left right : Str) : List (Op Tok) :=
  interleave Tok.start
    (align affinePolicy (significantToks (tokenize charType left))
      (significantToks (tokenize charType right)))
    (whitespaceToks (tokenize charType left))
    (whitespaceToks (tokenize charType right))

/-- The pipeline through the renderer. -/
def pipelineOutput (left right : Str) : List OutputLine :=
  outputLines (pipelineOps left right)

/-- Tokenization of `"a b"`, step by step through `TokenParser::next`. -/
lemma tokenize_ab :
    tokenize charType "a b".toList =
      [⟨['a'], 0, TokenType.Word⟩, ⟨[' '], 1, TokenType.WhiteSpace⟩,
        ⟨['b'], 2, TokenType.Word⟩] := by
  rw [tokenize]
  rw [runTokens_eq_some charType ⟨"a b".toList, 0, [], 0⟩ ⟨['a'], 0, TokenType.Word⟩
    ⟨[' ', 'b'], 1, [], 0⟩ rfl]
  rw [runTokens_eq_some charType ⟨[' ', 'b'], 1, [], 0⟩ ⟨[' '], 1, TokenType.WhiteSpace⟩
    ⟨['b'], 2, [], 0⟩ rfl]
  rw [runTokens_eq_some charType ⟨['b'], 2, [], 0⟩ ⟨['b'], 2, TokenType.Word⟩
    ⟨[], 3, [], 0⟩ rfl]
  rw [runTokens_eq_none charType ⟨[], 3, [], 0⟩ rfl]

/-- Tokenization of `"a  b"`. -/
lemma tokenize_aab :
    tokenize charType "a  b".toList =
      [⟨['a'], 0, TokenType.Word⟩, ⟨[' ', ' '], 1, TokenType.WhiteSpace⟩,
        ⟨['b'], 3, TokenType.Word⟩] := by
  rw [tokenize]
  rw [runTokens_eq_some charType ⟨"a  b".toList, 0, [], 0⟩ ⟨['a'], 0, TokenType.Word⟩
    ⟨[' ', ' ', 'b'], 1, [], 0⟩ rfl]
  rw [runTokens_eq_some charType ⟨[' ', ' ', 'b'], 1, [], 0⟩
    ⟨[' ', ' '], 1, TokenType.WhiteSpace⟩ ⟨['b'], 3, [], 0⟩ rfl]
  rw [runTokens_eq_some charType ⟨['b'], 3, [], 0⟩ ⟨['b'], 3, TokenType.Word⟩
    ⟨[], 4, [], 0⟩ rfl]
  rw [runTokens_eq_none charType ⟨[], 4, [], 0⟩ rfl]

section RatEval

attribute [local semireducible] Rat.add Rat.mul Rat.inv

/-- C4 (counterexample): on inputs `"a b"` and `"a  b"` the pipeline does
NOT render a Same line — `insert_right_space` sets the equal flag to
false, so the single line is a Change. -/
theorem pipeline_extra_space_not_same :
    pipelineOutput "a b".toList "a  b".toList ≠ [OutputLine.Same "a  b".toList] := by
  rw [pipelineOutput, pipelineOps, tokenize_ab, tokenize_aab]
  decide

/-- C4 (amended): on inputs `"a b"` and `"a  b"` the pipeline output is
exactly one line, a Change line with no left side and right text
`"a  b"` (the renderer's copy-to-both whitespace path clears the equal
flag, and the left buffer is whitespace-only so that side is absent). -/
theorem pipeline_extra_space_one_change_line :
    pipelineOutput "a b".toList "a  b".toList =
      [OutputLine.Change none (some "a  b".toList)] := by
  rw [pipelineOutput, pipelineOps, tokenize_ab, tokenize_aab]
  decide

end RatEval

/-- C5: a Mutation pair is rendered as unchanged text — the equal flag
survives and the raw right text is appended unmarked — if and only if the
two texts are byte-equal; otherwise (including texts differing only by
letter case) the equal flag is set to false and the pair is rendered as
removed/added markup. -/
theorem mutation_rendered_unchanged_iff (o : DiffLineOutput) (b : Bool) (l r : Tok) :
    ((outputStep (o, b) (Op.Mutation l r)).1.equal = (o.equal && decide (l.text = r.text))) ∧
    (l.text = r.text →
      (outputStep (o, b) (Op.Mutation l r)).1.right = o.right ++ r.text) ∧
    (l.text ≠ r.text →
      (outputStep (o, b) (Op.Mutation l r)).1.equal = false) := by
  refine ⟨?_, ?_, ?_⟩
  · by_cases h : l.text = r.text
    · simp [outputStep, DiffLineOutput.add_same, h]
    · simp [outputStep, DiffLineOutput.add_mutation, h]
  · intro h
    simp [outputStep, DiffLineOutput.add_same, h]
  · intro h
    simp [outputStep, DiffLineOutput.add_mutation, h]

theorem mutation_rendered_unchanged_iff_witness :
    (((outputStep (DiffLineOutput.new, true)
        (Op.Mutation ⟨['a'], 0, TokenType.Word⟩ ⟨['A'], 0, TokenType.Word⟩)).1.equal =
      (DiffLineOutput.new.equal &&
        decide ((⟨['a'], 0, TokenType.Word⟩ : Tok).text = (⟨['A'], 0, TokenType.Word⟩ : Tok).text))) ∧
    ((⟨['a'], 0, TokenType.Word⟩ : Tok).text = (⟨['A'], 0, TokenType.Word⟩ : Tok).text →
      (outputStep (DiffLineOutput.new, true)
        (Op.Mutation ⟨['a'], 0, TokenType.Word⟩ ⟨['A'], 0, TokenType.Word⟩)).1.right =
        DiffLineOutput.new.right ++ (⟨['A'], 0, TokenType.Word⟩ : Tok).text) ∧
    ((⟨['a'], 0, TokenType.Word⟩ : Tok).text ≠ (⟨['A'], 0, TokenType.Word⟩ : Tok).text →
      (outputStep (DiffLineOutput.new, true)
        (Op.Mutation ⟨['a'], 0, TokenType.Word⟩ ⟨['A'], 0, TokenType.Word⟩)).1.equal = false)) ∧
    (⟨['a'], 0, TokenType.Word⟩ : Tok).text ≠ (⟨['A'], 0, TokenType.Word⟩ : Tok).text :=
  ⟨mutation_rendered_unchanged_iff DiffLineOutput.new true
      ⟨['a'], 0, TokenType.Word⟩ ⟨['A'], 0, TokenType.Word⟩, by decide⟩

/-! ### Stream invariants of the tokenizer -/

/-- The next character to be parsed (if any) is not classified as
whitespace. -/
def NextNotWs (cls : Char → CharType) (st : ParserState) : Prop :=
  ∀ c, st.rest.head? = some c → cls c ≠ CharType.WhiteSpace

/-- Invariant of reachable parser states: every queued token is a block
marker anchored at the current position, and while a marker is queued the
next character to parse is not whitespace (the whitespace run that
produced the marker was maximal). -/
def StreamInv (cls : Char → CharType) (st : ParserState) : Prop :=
  (∀ tk ∈ st.next_tokens, tk.start = st.position ∧ isBlockTok tk.t = true) ∧
  (st.next_tokens ≠ [] → NextNotWs cls st)

lemma isBlockTok_not_ws {tk : Tok} (h : isBlockTok tk.t = true) :
    tk.is_whitespace = false := by
  cases htt : tk.t <;> simp [Tok.is_whitespace, htt] <;> rw [htt] at h <;>
    simp [isBlockTok] at h

lemma isBlockTok_blockMarker (p a b : Nat) : isBlockTok (blockMarker p a b).t = true := by
  rw [blockMarker]
  by_cases h : b < a
  · simp only [if_pos h]
    rfl
  · simp only [if_neg h]
    rfl

lemma head_dropWhile_false {α : Type} (p : α → Bool) :
    ∀ (l : List α) (x : α), (l.dropWhile p).head? = some x → p x = false := by
  intro l
  induction l with
  | nil => intro x hx; simp at hx
  | cons a as ih =>
    intro x hx
    rw [List.dropWhile_cons] at hx
    by_cases ha : p a = true
    · rw [if_pos ha] at hx
      exact ih x hx
    · rw [if_neg ha] at hx
      simp only [List.head?_cons, Option.some_inj] at hx
      subst hx
      exact Bool.not_eq_true _ |>.mp ha

lemma byteLen_pos (c : Char) (cs : Str) : 1 ≤ byteLen (c :: cs) := by
  have h1 := Char.utf8Size_pos c
  simp only [byteLen, List.map_cons, List.sum_cons]
  omega

/-- One `TokenParser::next` step preserves the stream invariant; the
yielded token starts at the current position, the position never
decreases, a token yielded while the next character is non-whitespace is
itself non-whitespace, and either the yielded token was a queued marker
(non-whitespace, position unchanged, next character still non-whitespace)
or the position strictly increased. -/
lemma pnext_inv (cls : Char → CharType) (st : ParserState) (t : Tok) (st' : ParserState)
    (h : pnext cls st = some (t, st')) (hinv : StreamInv cls st) :
    StreamInv cls st' ∧ t.start = st.position ∧ st.position ≤ st'.position ∧
    (NextNotWs cls st → t.is_whitespace = false) ∧
    ((t.is_whitespace = false ∧ st'.position = st.position ∧ NextNotWs cls st') ∨
      st.position < st'.position) := by
  obtain ⟨rest, pos, queue, prev⟩ := st
  obtain ⟨hq1, hq2⟩ := hinv
  cases queue with
  | cons t0 q =>
    simp only [pnext] at h
    cases h
    have ht0 := hq1 t (List.mem_cons_self _ _)
    have hnnw : NextNotWs cls ⟨rest, pos, q, prev⟩ := fun c hc => hq2 (by simp) c hc
    refine ⟨⟨fun tk htk => hq1 tk (List.mem_cons_of_mem _ htk), fun _ => hnnw⟩,
      ht0.1, le_refl _, fun _ => isBlockTok_not_ws ht0.2,
      Or.inl ⟨isBlockTok_not_ws ht0.2, rfl, hnnw⟩⟩
  | nil =>
    cases rest with
    | nil => simp [pnext, parseStep] at h
    | cons c cs =>
      simp only [pnext, parseStep] at h
      have hrunpos : 1 ≤ byteLen (if cls c = CharType.BlockChar then [c]
          else (c :: cs).takeWhile (fun x => decide (cls x = cls c))) := by
        split
        · exact byteLen_pos c []
        · rw [List.takeWhile_cons]
          simp only [decide_True, if_true]
          exact byteLen_pos c _
      by_cases hct : cls c = CharType.WhiteSpace
      · have hbc : ¬ cls c = CharType.BlockChar := by rw [hct]; simp
        rw [if_neg hbc, if_pos hct] at h
        rw [if_neg hbc] at hrunpos
        have hnws : NextNotWs cls ⟨c :: cs, pos, [], prev⟩ → False := by
          intro hn
          exact hn c rfl hct
        split at h
        · cases h
          refine ⟨⟨?_, ?_⟩, rfl, Nat.le_add_right _ _, fun hn => absurd hn hnws,
            Or.inr (Nat.lt_add_of_pos_right (by omega))⟩
          · intro tk htk
            simp only [List.mem_singleton] at htk
            subst htk
            exact ⟨rfl, isBlockTok_blockMarker _ _ _⟩
          · intro _
            intro x hx
            rw [drop_length_takeWhile] at hx
            have := head_dropWhile_false _ _ _ hx
            simp only [decide_eq_false_iff_not] at this
            rw [hct] at this
            exact this
        · cases h
          refine ⟨⟨fun tk htk => absurd htk (by simp), fun hne => absurd rfl hne⟩,
            rfl, Nat.le_add_right _ _, fun hn => absurd hn hnws,
            Or.inr (Nat.lt_add_of_pos_right (by omega))⟩
      · rw [if_neg hct] at h
        have htws : (Tok.mk (if cls c = CharType.BlockChar then [c]
            else (c :: cs).takeWhile (fun x => decide (cls x = cls c))) pos
              (tokTypeOf (cls c))).is_whitespace = false := by
          have hne : tokTypeOf (cls c) ≠ TokenType.WhiteSpace :=
            fun hh => hct ((tokTypeOf_eq_whitespace _).mp hh)
          simp [Tok.is_whitespace, hne]
        cases h
        refine ⟨⟨fun tk htk => absurd htk (by simp), fun hne => absurd rfl hne⟩,
          rfl, Nat.le_add_right _ _, fun _ => htws,
          Or.inr (Nat.lt_add_of_pos_right (by omega))⟩

/-- The DP measure strictly decreases along `pnext`. -/
lemma pnext_measure_lt (cls : Char → CharType) (st : ParserState) (t : Tok)
    (st' : ParserState) (h : pnext cls st = some (t, st')) :
    2 * st'.rest.length + st'.next_tokens.length <
      2 * st.rest.length + st.next_tokens.length := by
  rcases pnext_some_cases cls st t st' h with
    ⟨q, hqeq, hrest', hq'⟩ | ⟨hqe, hlen, _, _, hcat, htne⟩
  · rw [hrest', hq', hqeq]
    simp
  · have : t.text.length + st'.rest.length = st.rest.length := by
      rw [← hcat]; simp
    have htl : 1 ≤ t.text.length := by
      cases htt : t.text with
      | nil => exact absurd htt htne
      | cons a b => simp
    rw [hqe]
    simp only [List.length_nil]
    omega

/-- Ordering facts of the token stream, by induction on the DP measure:
from an invariant state, all yielded tokens start at or after the current
position, the stream is sorted by start, a whitespace token and a
non-whitespace token never share a start offset, and while the next
character is non-whitespace no token at the current position is
whitespace. -/
lemma runTokens_order (cls : Char → CharType) :
    ∀ (n : Nat) (st : ParserState),
      2 * st.rest.length + st.next_tokens.length ≤ n →
      StreamInv cls st →
      (∀ tk ∈ runTokens cls st, st.position ≤ tk.start) ∧
      List.Pairwise (fun a b : Tok => a.start ≤ b.start) (runTokens cls st) ∧
      (∀ a ∈ runTokens cls st, ∀ b ∈ runTokens cls st,
        a.is_whitespace = true → b.is_whitespace = false → a.start ≠ b.start) ∧
      (NextNotWs cls st →
        ∀ a ∈ runTokens cls st, a.start = st.position → a.is_whitespace = false) := by
  intro n
  induction n with
  | zero =>
    intro st hm _
    have hrest : st.rest = [] := List.length_eq_zero.mp (by omega)
    have hqe : st.next_tokens = [] := List.length_eq_zero.mp (by omega)
    have hpn : pnext cls st = none := by
      simp only [pnext, hqe, hrest, parseStep]
    rw [runTokens_eq_none cls st hpn]
    exact ⟨by simp, by simp, by simp, fun _ => by simp⟩
  | succ n ih =>
    intro st hm hinv
    cases hp : pnext cls st with
    | none =>
      rw [runTokens_eq_none cls st hp]
      exact ⟨by simp, by simp, by simp, fun _ => by simp⟩
    | some pr =>
      obtain ⟨t, st'⟩ := pr
      have hdec := pnext_measure_lt cls st t st' hp
      obtain ⟨hinv', hstart, hle, hnw, hcase⟩ := pnext_inv cls st t st' hp hinv
      obtain ⟨ih1, ih2, ih3, ih4⟩ := ih st' (by omega) hinv'
      rw [runTokens_eq_some cls st t st' hp]
      refine ⟨?_, ?_, ?_, ?_⟩
      · intro tk htk
        rcases List.mem_cons.mp htk with h1 | h1
        · rw [h1]; exact hstart.ge
        · exact le_trans hle (ih1 tk h1)
      · refine List.pairwise_cons.mpr ⟨?_, ih2⟩
        intro b hb
        calc t.start = st.position := hstart
          _ ≤ st'.position := hle
          _ ≤ b.start := ih1 b hb
      · intro a ha b hb hwa hwb
        rcases List.mem_cons.mp ha with h1 | h1 <;> rcases List.mem_cons.mp hb with h2 | h2
        · rw [h1] at hwa; rw [h2] at hwb; rw [hwa] at hwb; exact absurd hwb (by simp)
        · subst h1
          rcases hcase with ⟨hnwt, _, _⟩ | hlt
          · rw [hwa] at hnwt; exact absurd hnwt (by simp)
          · have hgeb := ih1 b h2
            rw [hstart]
            omega
        · subst h2
          intro heq
          rcases hcase with ⟨_, hpos, hnnw2⟩ | hlt
          · have hf := ih4 hnnw2 a h1 (by rw [heq, hstart]; exact hpos.symm)
            rw [hwa] at hf
            exact absurd hf (by simp)
          · have hgea := ih1 a h1
            rw [hstart] at heq
            omega
        · exact ih3 a h1 b h2 hwa hwb
      · intro hnn a ha hstarta
        rcases List.mem_cons.mp ha with h1 | h1
        · rw [h1]; exact hnw hnn
        · rcases hcase with ⟨_, hpos, hnnw2⟩ | hlt
          · exact ih4 hnnw2 a h1 (by rw [hstarta]; exact hpos.symm)
          · have hgea := ih1 a h1
            exact absurd hstarta (by omega)

lemma initState_inv (cls : Char → CharType) (source : Str) :
    StreamInv cls ⟨source, 0, [], 0⟩ :=
  ⟨fun tk htk => absurd htk (by simp), fun hne => absurd rfl hne⟩

/-- The token stream is sorted by start offset. -/
lemma tokenize_sorted (cls : Char → CharType) (source : Str) :
    List.Pairwise (fun a b : Tok => a.start ≤ b.start) (tokenize cls source) := by
  rw [tokenize]
  exact (runTokens_order cls (2 * source.length) ⟨source, 0, [], 0⟩ (by simp)
    (initState_inv cls source)).2.1

/-- A whitespace token and a non-whitespace token of the same stream never
share a start offset. -/
lemma tokenize_ws_distinct (cls : Char → CharType) (source : Str) :
    ∀ a ∈ tokenize cls source, ∀ b ∈ tokenize cls source,
      a.is_whitespace = true → b.is_whitespace = false → a.start ≠ b.start := by
  rw [tokenize]
  exact (runTokens_order cls (2 * source.length) ⟨source, 0, [], 0⟩ (by simp)
    (initState_inv cls source)).2.2.1

/-- C8: interleaving preserves relative token order.  For any two sources,
if an alignment script covers exactly the significant (non-whitespace)
tokens of each side, then merging the whitespace tokens back by start
offset yields an op list whose left projection is exactly the left
source's full token stream in original order, and likewise on the right —
every input token appears exactly once, in its original position. -/
theorem interleave_order_preservation (cls : Char → CharType) (srcL srcR : Str)
    (script : List (Op Tok))
    (hsl : leftProj script = significantToks (tokenize cls srcL))
    (hsr : rightProj script = significantToks (tokenize cls srcR)) :
    leftProj (interleave Tok.start script
        (whitespaceToks (tokenize cls srcL)) (whitespaceToks (tokenize cls srcR))) =
      tokenize cls srcL ∧
    rightProj (interleave Tok.start script
        (whitespaceToks (tokenize cls srcL)) (whitespaceToks (tokenize cls srcR))) =
      tokenize cls srcR :=
  interleave_partition_merge Tok.start (fun x => x.is_whitespace)
    (tokenize cls srcL) (tokenize cls srcR) script
    (tokenize_sorted cls srcL) (tokenize_sorted cls srcR)
    (tokenize_ws_distinct cls srcL) (tokenize_ws_distinct cls srcR) hsl hsr

/-- Witness for C8 at a concrete pair of sources and a concrete script. -/
theorem interleave_order_preservation_witness :
    (leftProj [Op.Mutation (⟨['a'], 0, TokenType.Word⟩ : Tok) ⟨['a'], 0, TokenType.Word⟩,
        Op.Mutation (⟨['b'], 2, TokenType.Word⟩ : Tok) ⟨['b'], 3, TokenType.Word⟩] =
      significantToks (tokenize charType "a b".toList) ∧
     rightProj [Op.Mutation (⟨['a'], 0, TokenType.Word⟩ : Tok) ⟨['a'], 0, TokenType.Word⟩,
        Op.Mutation (⟨['b'], 2, TokenType.Word⟩ : Tok) ⟨['b'], 3, TokenType.Word⟩] =
      significantToks (tokenize charType "a  b".toList)) ∧
    (leftProj (interleave Tok.start
        [Op.Mutation (⟨['a'], 0, TokenType.Word⟩ : Tok) ⟨['a'], 0, TokenType.Word⟩,
          Op.Mutation (⟨['b'], 2, TokenType.Word⟩ : Tok) ⟨['b'], 3, TokenType.Word⟩]
        (whitespaceToks (tokenize charType "a b".toList))
        (whitespaceToks (tokenize charType "a  b".toList))) =
      tokenize charType "a b".toList ∧
     rightProj (interleave Tok.start
        [Op.Mutation (⟨['a'], 0, TokenType.Word⟩ : Tok) ⟨['a'], 0, TokenType.Word⟩,
          Op.Mutation (⟨['b'], 2, TokenType.Word⟩ : Tok) ⟨['b'], 3, TokenType.Word⟩]
        (whitespaceToks (tokenize charType "a b".toList))
        (whitespaceToks (tokenize charType "a  b".toList))) =
      tokenize charType "a  b".toList) := by
  have hsl : leftProj [Op.Mutation (⟨['a'], 0, TokenType.Word⟩ : Tok) ⟨['a'], 0, TokenType.Word⟩,
      Op.Mutation (⟨['b'], 2, TokenType.Word⟩ : Tok) ⟨['b'], 3, TokenType.Word⟩] =
      significantToks (tokenize charType "a b".toList) := by
    rw [tokenize_ab]
    decide
  have hsr : rightProj [Op.Mutation (⟨['a'], 0, TokenType.Word⟩ : Tok) ⟨['a'], 0, TokenType.Word⟩,
      Op.Mutation (⟨['b'], 2, TokenType.Word⟩ : Tok) ⟨['b'], 3, TokenType.Word⟩] =
      significantToks (tokenize charType "a  b".toList) := by
    rw [tokenize_aab]
    decide
  exact ⟨⟨hsl, hsr⟩, interleave_order_preservation charType "a b".toList "a  b".toList _ hsl hsr⟩

end PlatypusDiff
